import Mathlib

/-!
# Verification of RandomJumpConsistentHashing

A shallow embedding of the class RandomJumpConsistentHashing from
RandomJumpConsistentHashing.py, together with proofs and refutations of the
specification's claims about it.

Modelling conventions:
* Python machine integers are modelled as Int (they are unbounded in Python).
* The numpy slot array serversArray (value -1 meaning "empty") is a function
  Nat → Option Nat; none stands for -1.
* The dicts objectsHistory / objectsCurrent share one key set; we keep their
  ordered key list in liveObjects (Python dicts preserve insertion order) and
  store the values in total functions whose values at dead keys are garbage,
  exactly like a popped Python key.  A lookup of a missing key (Python
  KeyError) is an error.
* Randomness is injected: np.random.randint(0, n) at draw k of a call is
  r k % n for a caller-supplied stream r : Nat → Nat, and np.random.shuffle
  is an oracle function returning a rearranged list (theorems that depend on
  it assume the oracle returns permutations, which np.random.shuffle does).
* Loops that Python runs without bound take fuel; none means the fuel ran
  out or a Python exception (KeyError / ValueError / IndexError) was raised.
* fillBinOne additionally returns a ghost trace: the list of server keys of
  the cascade frames that passed the load == loadCap - 1 guard, in call
  order.  The trace does not influence any computed state.
* The float expression int(np.ceil((1 + epsilon) * objects / servers)) is
  modelled exactly over the rationals.
-/

namespace RJCH

/-- Randomness oracle for one top-level call: a stream of integer draws and a
shuffle function, both indexed by the number of draws/shuffles made so far. -/
structure Oracle where
  randInt : Nat → Nat
  shuffle : Nat → List Nat → List Nat

/-- An oracle whose shuffles really are shuffles, i.e. permute their input;
np.random.shuffle always satisfies this. -/
def FairShuffles (O : Oracle) : Prop :=
  ∀ t xs, (O.shuffle t xs).Perm xs

/-- Identity oracle: draws are all 0 and shuffles change nothing. -/
def idOracle : Oracle := ⟨fun _ => 0, fun _ xs => xs⟩

/-- Executable exact ceiling of the fraction n / d (d a positive natural):
the value of int(np.ceil(...)) on that exact ratio.  Stated over integers so
that concrete instances evaluate inside the kernel; ceilDiv_eq_ceil below
identifies it with the mathematical ceiling over ℚ. -/
def ceilDiv (n : Int) (d : Nat) : Int := -((-n) / (d : Int))

/-- The attributes of a RandomJumpConsistentHashing instance. -/
structure RJState where
  serversCount : Nat
  totalServersAndPastCount : Nat
  duplicatesCount : Nat
  objectsCount : Int
  totalObjectsAndPastCount : Nat
  epsilon : ℚ
  loadCap : Int
  totalFull : Int
  /-- slot index ↦ owning server; none encodes the -1 sentinel. -/
  serversArray : Nat → Option Nat
  serversArrayLen : Nat
  /-- server id ↦ load counter (the servers dict). -/
  servers : Nat → Int
  fullFlag : Nat → Bool
  /-- server id ↦ its duplicate slot indices (serversToIdx). -/
  serversToIdx : Nat → List Nat
  /-- server id ↦ set of contained object ids (serversContains). -/
  serversContains : Nat → Finset Nat
  /-- ordered key list shared by the dicts objectsHistory / objectsCurrent. -/
  liveObjects : List Nat
  objectsHistory : Nat → List Nat
  objectsCurrent : Nat → Nat

/-- Constructor: records the counts and computes
loadCap = int(np.ceil((1 + epsilon) * objects / servers)).  No parameter is
validated and no error can be reported.  Collection attributes are created by
start; they are initialised here to empty placeholders (reading them before
start, which Python would reject with AttributeError, occurs in no claim). -/
def init (servers duplicates objects : Nat) (epsilon : ℚ) : RJState where
  serversCount := servers
  totalServersAndPastCount := servers
  duplicatesCount := duplicates
  objectsCount := (objects : Int)
  totalObjectsAndPastCount := objects
  epsilon := epsilon
  loadCap := ceilDiv (((epsilon.den : Int) + epsilon.num) * (objects : Int))
    (epsilon.den * servers)
  totalFull := 0
  serversArray := fun _ => none
  serversArrayLen := 0
  servers := fun _ => 0
  fullFlag := fun _ => false
  serversToIdx := fun _ => []
  serversContains := fun _ => ∅
  liveObjects := []
  objectsHistory := fun _ => []
  objectsCurrent := fun _ => 0

/-- Ring size fixed by start: serversArray has 2 to the 20 cells. -/
def ringLen : Nat := 2 ^ 20

/-- Rejection-sampling loop of start: draw slots until an empty one is found
(while serversArray[cur] != -1).  Returns the slot and the next cursor. -/
def sampleEmptySlot (r : Nat → Nat) (arr : Nat → Option Nat) (len : Nat) :
    Nat → Nat → Option (Nat × Nat)
  | 0, _ => none
  | fuel + 1, k =>
    if arr (r k % len) = none then some (r k % len, k + 1)
    else sampleEmptySlot r arr len fuel (k + 1)

/-- Inner loop of the duplicate assignment in start: place d duplicates of
server i, returning the updated array, the duplicate slot list (in draw
order) and the next cursor. -/
def assignDups (r : Nat → Nat) (len i fuel : Nat) :
    Nat → (Nat → Option Nat) → Nat → Option ((Nat → Option Nat) × List Nat × Nat)
  | 0, arr, k => some (arr, [], k)
  | d + 1, arr, k =>
    (sampleEmptySlot r arr len fuel k).bind (fun ck =>
      (assignDups r len i fuel d (Function.update arr ck.1 (some i))
          ck.2).bind
        (fun adk => some (adk.1, ck.1 :: adk.2.1, adk.2.2)))

/-- Outer loop of the duplicate assignment over the given server ids (the
source iterates the servers dict, i.e. ids 0, 1, ..., serversCount - 1). -/
def assignServers (r : Nat → Nat) (len dups fuel : Nat) :
    List Nat → (Nat → Option Nat) → (Nat → List Nat) → Nat →
    Option ((Nat → Option Nat) × (Nat → List Nat) × Nat)
  | [], arr, toIdx, k => some (arr, toIdx, k)
  | i :: rest, arr, toIdx, k =>
    (assignDups r len i fuel dups arr k).bind (fun adk =>
      assignServers r len dups fuel rest adk.1
        (Function.update toIdx i adk.2.1) adk.2.2)

/-- A probed slot is accepted iff it is non-empty and its server is not full
(exit condition of while serversArray[num] == -1 or fullFlag[...]). -/
def eligible (st : RJState) (num : Nat) : Bool :=
  match st.serversArray num with
  | none => false
  | some s => !st.fullFlag s

/-- Probe loop shared by the initial load in start and by addOneObject: draw
slots, recording every draw, until an eligible one appears.  Returns the full
probe list (the accepted slot last), the accepted slot, and the next cursor. -/
def probeLoop (st : RJState) (r : Nat → Nat) :
    Nat → Nat → Option (List Nat × Nat × Nat)
  | 0, _ => none
  | fuel + 1, k =>
    let num := r k % st.serversArrayLen
    if eligible st num then some ([num], num, k + 1)
    else
      match probeLoop st r fuel (k + 1) with
      | none => none
      | some (probes, acc, k2) => some (num :: probes, acc, k2)

/-- State change of a successful placement of objId at slot acc owned by
curServer: increment the load, set the full flag when the load reaches
loadCap, add the object to serversContains, store the probe history and the
current slot. -/
def commitRecord (st : RJState) (objId : Nat) (probes : List Nat)
    (acc curServer : Nat) : RJState :=
  let newLoad := st.servers curServer + 1
  { st with
    servers := Function.update st.servers curServer newLoad
    fullFlag := if newLoad = st.loadCap then
        Function.update st.fullFlag curServer true else st.fullFlag
    totalFull := if newLoad = st.loadCap then st.totalFull + 1 else st.totalFull
    serversContains := Function.update st.serversContains curServer
      (insert objId (st.serversContains curServer))
    objectsHistory := Function.update st.objectsHistory objId probes
    objectsCurrent := Function.update st.objectsCurrent objId acc }

/-- Book-keeping after a successful probe loop for object objId.  The none
branch (accepted slot empty) is unreachable after probeLoop; in Python it
would be a KeyError on the servers dict. -/
def commitPlacement (st : RJState) (objId : Nat) (probes : List Nat)
    (acc : Nat) : Option RJState :=
  match st.serversArray acc with
  | none => none
  | some curServer => some (commitRecord st objId probes acc curServer)

/-- Place one object: probe then commit. -/
def placeOne (st : RJState) (r : Nat → Nat) (fuel objId k : Nat) :
    Option (RJState × Nat) :=
  (probeLoop st r fuel k).bind (fun pak =>
    (commitPlacement st objId pak.1 pak.2.1).bind
      (fun st1 => some (st1, pak.2.2)))

/-- Initial-load loop of start over object ids 0, ..., objectsCount - 1. -/
def placeAll (r : Nat → Nat) (fuel : Nat) :
    List Nat → RJState → Nat → Option (RJState × Nat)
  | [], st, k => some (st, k)
  | i :: rest, st, k =>
    (placeOne st r fuel i k).bind (fun sk => placeAll r fuel rest sk.1 sk.2)

/-- Registry reset of start, source lines 113-139: fresh loads, flags,
containment sets and object dicts for ids 0..objectsCount-1, around the newly
built ring.  The probe histories of unplaced ids start empty and the 0.5
placeholder stored in objectsCurrent is modelled as 0; neither is read before
being overwritten. -/
def startBase (st0 : RJState) (arr : Nat → Option Nat)
    (toIdx : Nat → List Nat) : RJState :=
  { st0 with
    servers := fun _ => 0
    fullFlag := fun _ => false
    serversArray := arr
    serversArrayLen := ringLen
    serversToIdx := toIdx
    serversContains := fun _ => ∅
    liveObjects := List.range st0.objectsCount.toNat
    objectsHistory := fun _ => []
    objectsCurrent := fun _ => 0 }

/-- Method start: build the ring (rejection sampling of duplicatesCount
distinct slots per server), reset the registries, and place each of the
objectsCount initial objects with the shared probe loop. -/
def start (st0 : RJState) (r : Nat → Nat) (fuel : Nat) : Option RJState :=
  (assignServers r ringLen st0.duplicatesCount fuel
      (List.range st0.serversCount) (fun _ => none) (fun _ => []) 0).bind
    (fun atk =>
      (placeAll r fuel (List.range st0.objectsCount.toNat)
          (startBase st0 atk.1 atk.2.1) atk.2.2).map
        (fun sk => sk.1))

/-- Method addOneObject: place a fresh object (id totalObjectsAndPastCount)
with the shared probe loop, then bump objectsCount and the id counter.  The
new id becomes the last key of the object dicts. -/
def addOneObject (st : RJState) (r : Nat → Nat) (fuel : Nat) : Option RJState :=
  (placeOne st r fuel st.totalObjectsAndPastCount 0).map (fun sk =>
    { sk.1 with
      liveObjects := sk.1.liveObjects ++ [st.totalObjectsAndPastCount]
      objectsCount := sk.1.objectsCount + 1
      totalObjectsAndPastCount := st.totalObjectsAndPastCount + 1 })

/-- Valid-mover test of fillBinOne cascade, source lines 299-300:
(serverIdx in objectsHistory[i]) and (serversArray[objectsCurrent[i]] !=
serverKey).  In Python the right conjunct also holds when the current slot is
empty (-1 != serverKey); the Option comparison mirrors that. -/
def moverCond (st : RJState) (serverKey i s : Nat) : Bool :=
  decide (s ∈ st.objectsHistory i) &&
    !(st.serversArray (st.objectsCurrent i) == some serverKey)

/-- Displacement step of fillBinOne, source lines 302-316: insert i into the
target server, bump its load, remove i from its donor (decrement, clearing a
set full flag), truncate the history of i at the first occurrence of s, and
repoint i to s.  Returns the new state and binUnfilled, the slot i vacated.
The none branch is a KeyError on serversContains[-1].  Python set.remove
would fail when i is absent from the donor set; Finset.erase silently agrees
with it on every reachable state. -/
def moveRecord (st : RJState) (serverKey i s donor : Nat) : RJState × Nat :=
  let st1 := { st with
    serversContains := Function.update st.serversContains serverKey
      (insert i (st.serversContains serverKey))
    servers := Function.update st.servers serverKey
      (st.servers serverKey + 1) }
  let st2 := { st1 with
    serversContains := Function.update st1.serversContains donor
      ((st1.serversContains donor).erase i)
    servers := Function.update st1.servers donor (st1.servers donor - 1) }
  let st3 := { st2 with
    fullFlag := if st2.fullFlag donor then
        Function.update st2.fullFlag donor false else st2.fullFlag
    totalFull := if st2.fullFlag donor then st2.totalFull - 1
      else st2.totalFull }
  let idx := (st3.objectsHistory i).indexOf s
  let st4 := { st3 with
    objectsHistory := Function.update st3.objectsHistory i
      ((st3.objectsHistory i).take (idx + 1)) }
  let binUnfilled := st4.objectsCurrent i
  let st5 := { st4 with
    objectsCurrent := Function.update st4.objectsCurrent i s }
  (st5, binUnfilled)

def moveObject (st : RJState) (serverKey i s : Nat) :
    Option (RJState × Nat) :=
  match st.serversArray (st.objectsCurrent i) with
  | none => none
  | some donor => some (moveRecord st serverKey i s donor)

/-- Early-return test of source lines 320-321: the bin is full again and its
flag is still down. -/
def stopCheck (serverKey : Nat) (st2 : RJState) : Bool :=
  decide (st2.servers serverKey = st2.loadCap) && !st2.fullFlag serverKey

/-- Flag update of source lines 322-323 before the early return. -/
def setFull (serverKey : Nat) (st2 : RJState) : RJState :=
  { st2 with
    totalFull := st2.totalFull + 1
    fullFlag := Function.update st2.fullFlag serverKey true }

/-- Inner for-loop of fillBinOne over the shuffled duplicate slots of the
server being refilled, for one candidate object i.  fill is the recursive
cascade call at one less fuel.  The Bool of the result is true when the early
return of source lines 320-324 fired (the bin is full again); the List Nat
accumulates the ghost visit trace of the recursive calls. -/
def scanDups (fill : RJState → Nat → Nat → Option (RJState × Nat × List Nat))
    (serverKey i : Nat) :
    List Nat → RJState → Nat → Option (Bool × RJState × Nat × List Nat)
  | [], st, t => some (false, st, t, [])
  | s :: rest, st, t =>
    if moverCond st serverKey i s then
      (moveObject st serverKey i s).bind (fun mv =>
        (fill mv.1 mv.2 t).bind (fun fr =>
          if stopCheck serverKey fr.1 then
            some (true, setFull serverKey fr.1, fr.2.1, fr.2.2)
          else
            (scanDups fill serverKey i rest fr.1 fr.2.1).map
              (fun r => (r.1, r.2.1, r.2.2.1, fr.2.2 ++ r.2.2.2))))
    else scanDups fill serverKey i rest st t

/-- Outer for-loop of fillBinOne over the shuffled live object list. -/
def scanObjs (fill : RJState → Nat → Nat → Option (RJState × Nat × List Nat))
    (serverKey : Nat) (dups : List Nat) :
    List Nat → RJState → Nat → Option (RJState × Nat × List Nat)
  | [], st, t => some (st, t, [])
  | i :: rest, st, t =>
    (scanDups fill serverKey i dups st t).bind (fun r =>
      if r.1 then some (r.2.1, r.2.2.1, r.2.2.2)
      else
        (scanObjs fill serverKey dups rest r.2.1 r.2.2.1).map
          (fun q => (q.1, q.2.1, r.2.2.2 ++ q.2.2)))

/-- Method fillBinOne(serverIdx): refill the owner of slot serverIdx by one
object if it sits at loadCap - 1, displacing an object whose probe history
contains one of the owner's slots, and recursing on the slot that object
vacated.  Fuel bounds the recursion depth; t is the shuffle cursor.  The
returned list is the ghost trace of guard-passing frames.  The none branch on
an empty slot is the KeyError Python would raise on servers[-1]. -/
def fillBinOne (O : Oracle) : Nat → RJState → Nat → Nat →
    Option (RJState × Nat × List Nat)
  | 0, _, _, _ => none
  | fuel + 1, st, serverIdx, t =>
    (st.serversArray serverIdx).bind (fun serverKey =>
      if st.servers serverKey ≠ st.loadCap - 1 then some (st, t, [])
      else
        (scanObjs (fillBinOne O fuel) serverKey
            (O.shuffle t (st.serversToIdx serverKey))
            (O.shuffle (t + 1) st.liveObjects) st (t + 2)).map
          (fun r => (r.1, r.2.1, serverKey :: r.2.2)))

/-- Unregistration step of removeOneObject, source lines 264-270: drop the
object from its server's containment set, decrement the load, the live count
and the registries. -/
def removeRecord (st : RJState) (objectNum serverKey : Nat) : RJState :=
  { st with
    serversContains := Function.update st.serversContains serverKey
      ((st.serversContains serverKey).erase objectNum)
    servers := Function.update st.servers serverKey
      (st.servers serverKey - 1)
    objectsCount := st.objectsCount - 1
    liveObjects := st.liveObjects.erase objectNum }

/-- Flag clearing of source lines 273-275 before the cascade. -/
def clearFlag (serverKey : Nat) (st1 : RJState) : RJState :=
  { st1 with
    fullFlag := Function.update st1.fullFlag serverKey false
    totalFull := st1.totalFull - 1 }

/-- Body of removeOneObject after the random draw picked objectNum: look the
object up (a missing key is a KeyError on objectsCurrent, the none branch),
unregister it, and when the vacated server was full clear its flag and run
the fillBinOne cascade on the vacated slot. -/
def removeById (O : Oracle) (fuel : Nat) (st : RJState) (objectNum : Nat) :
    Option (RJState × List Nat) :=
  if objectNum ∈ st.liveObjects then
    (st.serversArray (st.objectsCurrent objectNum)).bind (fun serverKey =>
      let st1 := removeRecord st objectNum serverKey
      if st1.fullFlag serverKey then
        (fillBinOne O fuel (clearFlag serverKey st1)
            (st.objectsCurrent objectNum) 0).map (fun r => (r.1, r.2.2))
      else some (st1, []))
  else none

/-- Method removeOneObject: np.random.choice over the keys of objectsCurrent
picks a uniformly random live object (the draw is modelled as an index into
the key list); on an empty registry the draw raises ValueError before any
state is touched.  The rest is removeById. -/
def removeOneObject (O : Oracle) (fuel : Nat) (st : RJState) :
    Option (RJState × List Nat) :=
  if st.liveObjects.isEmpty then none
  else
    removeById O fuel st
      (st.liveObjects.getD (O.randInt 0 % st.liveObjects.length) 0)

/-! ## The multi-probe timing method assignObjectWallTime

mmh3.hash64 yields a pair of signed 64-bit integers; it is injected as an
oracle H : Nat → Int × Int giving the hash of (inputStr + hex(counter)),
with H 0 the initial hash of inputStr alone.  Python's bitwise operators on
possibly negative integers: x & (2^m - 1) is the nonnegative remainder and
x >> k is an arithmetic (floor) shift.  Note the source method also
references an unimported time module, so running it raises NameError; the
model captures the probing loop it encodes. -/

/-- Python bitwise and of x with the mask 2 ^ m - 1. -/
def pyAnd (x : Int) (m : Nat) : Int := x.emod (2 ^ m)

/-- Python arithmetic right shift of x by k bits (floor division). -/
def pyShr (x : Int) (k : Nat) : Int := Int.fdiv x (2 ^ k)

/-- Candidate quadruple of the first attempt, source lines 206-214:
(h1 & 0xFFFFFFFF) >> 12, (h1 >> 32) >> 12, and the same on h2. -/
def firstSplit (h : Int × Int) : Int × Int × Int × Int :=
  (pyShr (pyAnd h.1 32) 12, pyShr (pyShr h.1 32) 12,
   pyShr (pyAnd h.2 32) 12, pyShr (pyShr h.2 32) 12)

/-- Candidate quadruple of every retry, source lines 220-224:
h1 & 1048575, h1 >> 44, h2 & 1048575, h2 >> 44. -/
def rehashSplit (h : Int × Int) : Int × Int × Int × Int :=
  (pyAnd h.1 20, pyShr h.1 44, pyAnd h.2 20, pyShr h.2 44)

/-- Numpy indexing of serversArray at a possibly negative index: a negative
index within -len..-1 wraps to the end; anything further out is IndexError. -/
def npIndex (st : RJState) (z : Int) : Option (Option Nat) :=
  if 0 ≤ z ∧ z < (st.serversArrayLen : Int) then
    some (st.serversArray z.toNat)
  else if -(st.serversArrayLen : Int) ≤ z ∧ z < 0 then
    some (st.serversArray (z + (st.serversArrayLen : Int)).toNat)
  else none

/-- One conjunct of the while condition: the slot at index z is empty or its
server is full. -/
def ineligibleAt (st : RJState) (z : Int) : Option Bool :=
  match npIndex st z with
  | none => none
  | some none => some true
  | some (some s) => some (st.fullFlag s)

/-- The whole while condition, with Python's left-to-right short-circuit:
a later candidate is only indexed when every earlier one was ineligible. -/
def allIneligible (st : RJState) (c : Int × Int × Int × Int) : Option Bool :=
  match ineligibleAt st c.1 with
  | none => none
  | some false => some false
  | some true =>
    match ineligibleAt st c.2.1 with
    | none => none
    | some false => some false
    | some true =>
      match ineligibleAt st c.2.2.1 with
      | none => none
      | some false => some false
      | some true => ineligibleAt st c.2.2.2

/-- Retry loop of assignObjectWallTime: while all four candidates are
ineligible, bump the attempt counter and resplit a fresh hash.  Returns the
attempt counter at which some candidate qualified (the method itself returns
only the elapsed wall time; the counter is the observable loop outcome). -/
def wallTimeLoop (H : Nat → Int × Int) (st : RJState) :
    Nat → Nat → Int × Int × Int × Int → Option Nat
  | 0, _, _ => none
  | fuel + 1, counter, c =>
    match allIneligible st c with
    | none => none
    | some true => wallTimeLoop H st fuel (counter + 1) (rehashSplit (H (counter + 1)))
    | some false => some counter

/-- Method assignObjectWallTime: split one 128-bit hash into four candidate
indices and retry with fresh hashes until one is eligible. -/
def assignObjectWallTime (H : Nat → Int × Int) (st : RJState) (fuel : Nat) :
    Option Nat :=
  wallTimeLoop H st fuel 0 (firstSplit (H 0))

/-! ## Concrete executions used by the refutations -/

/-- Finite stream: entry k of the list, 0 afterwards. -/
def str (l : List Nat) : Nat → Nat := fun k => l.getD k 0

/-- The rational 3/10 in explicit normal form (kernel reducible). -/
def q310 : ℚ := ⟨3, 10, by decide, by decide⟩

instance : Inhabited RJState := ⟨init 0 0 0 1⟩

/-- Shuffle oracle of the first removal in the overfill run: the object scan
order of the top cascade frame is 4,1,2,3,5; every other shuffle is the
identity and the removal draw picks index 0. -/
def exO1 : Oracle := ⟨fun _ => 0, fun t xs => if t = 1 then [4, 1, 2, 3, 5] else xs⟩

/-- Overfill run, step 1: three servers (slots 10/11, 20/21, 30/31), two
initial objects, epsilon 1, loadCap 2; both initial objects land on slot 10
filling server 0. -/
def exStart : Option RJState :=
  start (init 3 2 2 1) (str [10, 11, 20, 21, 30, 31, 10, 10]) 50

/-- Overfill run, step 2: four additions recording probe rejections against
full servers: histories [10,20], [11,21], [20,11,30], [10,31]. -/
def exAfterAdds : Option RJState := do
  let st0 ← exStart
  let st1 ← addOneObject st0 (str [10, 20]) 10
  let st2 ← addOneObject st1 (str [11, 21]) 10
  let st3 ← addOneObject st2 (str [20, 11, 30]) 10
  addOneObject st3 (str [10, 31]) 10

/-- Overfill run, step 3: remove object 0 (cascade refills server 0 from
object 4), then remove object 1: the second cascade drives server 0 to
load 3 > loadCap 2 and visits servers 0 and 1 twice each. -/
def exFinalRun : Option (RJState × List Nat) := do
  let st ← exAfterAdds
  let p ← removeOneObject exO1 20 st
  removeOneObject idOracle 20 p.1

/-- Single-server run whose one object records a probe of the empty slot 7
before being accepted at slot 5: probe history [7, 5]. -/
def exStart5 : Option RJState := start (init 1 1 1 q310) (str [5, 7, 5]) 10

/-- The state of exStart5 (the run does succeed). -/
def exSt5 : RJState := exStart5.iget

/-- State after adding one object to exSt5 with draw stream 9, 5: one
rejected probe of the empty slot 9, then acceptance at slot 5. -/
def exAdd4St : RJState := (addOneObject exSt5 (str [9, 5]) 10).iget

/-- Construction with loadCap = 0 < 1 (zero expected objects): start
succeeds silently. -/
def exStart3 : Option RJState := start (init 1 1 0 q310) (str [5]) 10

/-- Hand-built state exercising moveObject / the fillBinOne guard: two ring
slots 3 and 4 owned by servers 0 and 1, one live object 7 with history
[4, 9, 3] currently at slot 3 (server 0). -/
def tinySt : RJState := { init 2 1 5 1 with
  serversArray := fun n => if n = 3 then some 0 else if n = 4 then some 1 else none
  serversArrayLen := 8
  servers := fun _ => 1
  serversToIdx := fun s => if s = 0 then [3] else if s = 1 then [4] else []
  serversContains := fun s => if s = 0 then {7} else ∅
  liveObjects := [7]
  objectsHistory := fun i => if i = 7 then [4, 9, 3] else []
  objectsCurrent := fun i => if i = 7 then 3 else 0 }

/-- Result of moving object 7 of tinySt into slot 9 of server 0 (slot 9 sits
in the history of object 7). -/
def tinyMove : RJState × Nat := (moveObject tinySt 0 7 9).iget

/-! ## Wellformedness, frame facts and the cascade measure -/

/-- Wellformedness of a state: exactly the structural facts that really are
preserved by start / addOneObject / removeOneObject (note that load <=
loadCap and the full-flag characterisation are deliberately absent: the code
does not preserve them, see the overfill run). -/
structure WF (st : RJState) : Prop where
  ringValid : ∀ n s, st.serversArray n = some s → s < st.serversCount
  dupsValid : ∀ s j, j ∈ st.serversToIdx s → st.serversArray j = some s
  liveNodup : st.liveObjects.Nodup
  currentValid : ∀ i, i ∈ st.liveObjects →
    (st.serversArray (st.objectsCurrent i)).isSome = true
  histLast : ∀ i, i ∈ st.liveObjects →
    (st.objectsHistory i).getLast? = some (st.objectsCurrent i)
  idsFresh : ∀ i, i ∈ st.liveObjects → i < st.totalObjectsAndPastCount
  sumLoads : ∑ s ∈ Finset.range st.serversCount, st.servers s = st.objectsCount
  countLen : st.objectsCount = st.liveObjects.length

/-- Fields never touched by the fillBinOne cascade. -/
structure SameSkeleton (a b : RJState) : Prop where
  scount : b.serversCount = a.serversCount
  arr : b.serversArray = a.serversArray
  alen : b.serversArrayLen = a.serversArrayLen
  toIdx : b.serversToIdx = a.serversToIdx
  live : b.liveObjects = a.liveObjects
  ocount : b.objectsCount = a.objectsCount
  cap : b.loadCap = a.loadCap
  total : b.totalObjectsAndPastCount = a.totalObjectsAndPastCount

/-- Total length of all live probe histories: the cascade's termination
measure (each displacement strictly truncates one live history). -/
def histMeasure (st : RJState) : Nat :=
  (st.liveObjects.map (fun i => (st.objectsHistory i).length)).sum

/-- The cascade contract: success preserves wellformedness, the skeleton
fields and never grows the measure. -/
def FillOK (fill : RJState → Nat → Nat → Option (RJState × Nat × List Nat)) :
    Prop :=
  ∀ st slot t st2 t2 log, fill st slot t = some (st2, t2, log) → WF st →
    WF st2 ∧ SameSkeleton st st2 ∧ histMeasure st2 ≤ histMeasure st

/-- Totality contract: on a wellformed state, a non-empty slot and a measure
below N the call cannot run out of fuel. -/
def FillTotal (fill : RJState → Nat → Nat → Option (RJState × Nat × List Nat))
    (N : Nat) : Prop :=
  ∀ st slot t, WF st → (st.serversArray slot).isSome = true →
    histMeasure st < N → (fill st slot t).isSome = true

/-- Observable states: the result of start on a constructed instance,
closed under successful addOneObject / removeOneObject calls (with honest
shuffle oracles). -/
inductive Reachable : RJState → Prop
  | base (servers duplicates objects : Nat) (epsilon : ℚ) (r : Nat → Nat)
      (fuel : Nat) (st : RJState) :
      start (init servers duplicates objects epsilon) r fuel = some st →
      Reachable st
  | add (st st2 : RJState) (r : Nat → Nat) (fuel : Nat) :
      Reachable st → addOneObject st r fuel = some st2 → Reachable st2
  | remove (st st2 : RJState) (log : List Nat) (O : Oracle) (fuel : Nat) :
      Reachable st → FairShuffles O →
      removeOneObject O fuel st = some (st2, log) → Reachable st2

/-! ## Theorems -/

theorem idOracle_fair : FairShuffles idOracle := fun _ _ => List.Perm.refl _

theorem ceilDiv_eq_ceil (n : Int) (d : Nat) :
    ceilDiv n d = Int.ceil ((n : ℚ) / (d : ℚ)) := by
  have h1 := Rat.floor_intCast_div_natCast (-n) d
  rw [Int.cast_neg, neg_div, Int.floor_neg] at h1
  rw [ceilDiv]
  linarith [h1]

/-- Faithfulness of the integer-level loadCap computation: for a nonzero
server count it is exactly int(np.ceil((1 + epsilon) * objects / servers))
evaluated over exact rationals. -/
theorem init_loadCap (servers duplicates objects : Nat) (epsilon : ℚ)
    (hs : servers ≠ 0) :
    (init servers duplicates objects epsilon).loadCap =
      Int.ceil ((1 + epsilon) * (objects : ℚ) / (servers : ℚ)) := by
  have hd0 : (epsilon.den : ℚ) ≠ 0 := by
    exact_mod_cast epsilon.den_nz
  have hs0 : (servers : ℚ) ≠ 0 := by exact_mod_cast hs
  show ceilDiv (((epsilon.den : Int) + epsilon.num) * (objects : Int))
      (epsilon.den * servers) = _
  rw [ceilDiv_eq_ceil]
  congr 1
  nth_rewrite 4 [← Rat.num_div_den epsilon]
  push_cast
  field_simp

/-! ### Claim C1 (code bug): the rebalancing cascade can overfill a server -/

/-- C1: refuted on a fully concrete reachable execution.  The claim demands
load <= loadCap and isFull = (load = loadCap) for every server after every
completed operation.  After the second removal of the overfill run, server 0
holds load 3 with loadCap 2 and isFull = true: both the bound and the flag
characterisation are falsified (while load still matches the containment
cardinality, here 3 objects).  The root cause: the early-return check of
fillBinOne (source lines 320-324) requires fullFlag == False, so a frame
whose server was refilled and flagged by a deeper recursive frame keeps
scanning and moves yet another object in, with no capacity check. -/
theorem c1_overfull_after_cascade :
    exFinalRun.map (fun p =>
        (p.1.servers 0, p.1.loadCap, p.1.fullFlag 0,
          decide (p.1.servers 0 ≤ p.1.loadCap),
          decide (p.1.fullFlag 0 = decide (p.1.servers 0 = p.1.loadCap)),
          (p.1.serversContains 0).card)) =
      some (3, 2, true, false, false, 3) := by decide

/-! ### Claim C3 (corrected): construction never validates its parameters -/

/-- C3: counterexample.  A configuration with loadCap = 0 < 1 (expected
object count 0) constructs and starts successfully and silently, against the
claim that every such parameter combination fails with a configuration
error. -/
theorem c3_counterexample :
    (init 1 1 0 q310).loadCap < 1 ∧ exStart3.isSome = true := by
  constructor
  · decide
  · decide

/-- C3 as amended: no validation exists at all.  For every epsilon and every
random stream, the zero-object configuration has loadCap < 1, yet init
reports nothing and start succeeds.  (For the other bad family,
serverCount * duplicatesPerServer > ringSize, start simply never terminates:
the rejection sampling loop can find no empty slot, which is a hang, not a
reported error.) -/
theorem c3_construction_never_validates (epsilon : ℚ) (r : Nat → Nat) :
    (init 1 1 0 epsilon).loadCap < 1 ∧
      (start (init 1 1 0 epsilon) r 1).isSome = true := by
  constructor
  · show ceilDiv (((epsilon.den : Int) + epsilon.num) * ((0 : Nat) : Int))
        (epsilon.den * 1) < 1
    simp [ceilDiv]
  · rfl

/-! ### Claim C5 (corrected): probe histories do record empty slots -/

/-- C5: counterexample.  In the exStart5 run, live object 0 has probe history
[7, 5], and ring slot 7 is empty (it was empty when probed and the ring never
changes after construction), refuting that every recorded history element was
a non-empty slot when recorded.  The last element, 5, is its current slot. -/
theorem c5_counterexample :
    exStart5.map (fun st =>
        (decide (0 ∈ st.liveObjects), st.objectsHistory 0,
          st.serversArray 7, st.objectsCurrent 0, st.serversArray 5)) =
      some (true, [7, 5], none, 5, some 0) := by decide

/-! ### Claim C9 (confirmed): removing a dead id fails loudly -/

/-- C9: the registry lookup inside removeOneObject (the dict access
objectsCurrent[objectNum], here the entry gate of removeById) raises KeyError
for every id that is not live: the call errors out instead of silently
completing, and no state is returned. -/
theorem c9_dead_id_lookup_errors (O : Oracle) (fuel : Nat) (st : RJState)
    (objectNum : Nat) (h : objectNum ∉ st.liveObjects) :
    removeById O fuel st objectNum = none := by
  simp [removeById, h]

theorem c9_witness :
    removeById idOracle 1 (init 1 1 0 q310) 5 = none :=
  c9_dead_id_lookup_errors idOracle 1 (init 1 1 0 q310) 5 (by decide)

/-! ### Claim C10 (confirmed): removal picks a random live object -/

/-- C10: removeOneObject takes no object id from the caller: it draws a
uniformly random index into the live key list (np.random.choice) and always
removes a live object; on an empty registry the draw itself raises
(ValueError) before any state is touched, so nothing is returned and no
mutation happens. -/
theorem c10_random_removal_selection (O : Oracle) (fuel : Nat) (st : RJState) :
    (st.liveObjects = [] → removeOneObject O fuel st = none) ∧
    (st.liveObjects ≠ [] →
      st.liveObjects.getD (O.randInt 0 % st.liveObjects.length) 0 ∈
        st.liveObjects ∧
      removeOneObject O fuel st = removeById O fuel st
        (st.liveObjects.getD (O.randInt 0 % st.liveObjects.length) 0)) := by
  constructor
  · intro h
    simp [removeOneObject, h]
  · intro h
    have hlen : 0 < st.liveObjects.length := List.length_pos.mpr h
    have hlt : O.randInt 0 % st.liveObjects.length < st.liveObjects.length :=
      Nat.mod_lt _ hlen
    constructor
    · rw [List.getD_eq_getElem _ _ hlt]
      exact List.getElem_mem hlt
    · rw [removeOneObject, if_neg (by simp [List.isEmpty_iff, h])]

/-! ### List helper lemmas -/

/-- Truncating at one past the first occurrence of s leaves s as the final
element: the core fact about the history truncation of fillBinOne. -/
theorem getLast_take_indexOf {l : List Nat} {s : Nat} (h : s ∈ l) :
    (l.take (l.indexOf s + 1)).getLast? = some s := by
  induction l with
  | nil => cases h
  | cons a tl ih =>
    by_cases ha : a = s
    · subst ha
      rw [List.indexOf_cons_self, zero_add, List.take_succ_cons, List.take_zero]
      rfl
    · have hs : s ∈ tl := by
        rcases List.mem_cons.mp h with h1 | h1
        · exact absurd h1.symm ha
        · exact h1
      have hidx : List.indexOf s (a :: tl) = List.indexOf s tl + 1 := by
        rw [List.indexOf_cons]
        have : (a == s) = false := by
          simp [ha]
        rw [this]
        rfl
      rw [hidx, List.take_succ_cons]
      have hlast := ih hs
      cases hq : tl.take (tl.indexOf s + 1) with
      | nil =>
        rw [hq] at hlast
        cases hlast
      | cons b tb =>
        rw [hq] at hlast
        rw [List.getLast?_cons_cons]
        exact hlast

theorem c10_witness :
    removeOneObject idOracle 1 (init 1 1 0 q310) = none ∧
    (exSt5.liveObjects.getD (idOracle.randInt 0 % exSt5.liveObjects.length) 0 ∈
        exSt5.liveObjects ∧
      removeOneObject idOracle 1 exSt5 = removeById idOracle 1 exSt5
        (exSt5.liveObjects.getD (idOracle.randInt 0 % exSt5.liveObjects.length) 0)) :=
  ⟨(c10_random_removal_selection idOracle 1 (init 1 1 0 q310)).1 (by decide),
   (c10_random_removal_selection idOracle 1 exSt5).2 (by decide)⟩

/-! ### Claim C6 (confirmed): the guard, the mover test and the move -/

/-- C6: (a) when the owner of the slot is not at loadCap - 1, fillBinOne
returns at once with the state unchanged (and an empty visit trace);
(b) the valid-mover test is exactly: the owned slot s occurs in the
candidate's probe history and the candidate's current server is not already
the refilled server; (c) a move truncates the mover's history at the first
occurrence of s, leaving s as its last element, sets its current slot to s,
and cascades on the slot the mover vacated. -/
theorem c6_guard_mover_move (O : Oracle) (fuel t : Nat) (st : RJState)
    (slot serverKey i s : Nat) :
    (st.serversArray slot = some serverKey →
      st.servers serverKey ≠ st.loadCap - 1 →
      fillBinOne O (fuel + 1) st slot t = some (st, t, [])) ∧
    (moverCond st serverKey i s = true ↔
      s ∈ st.objectsHistory i ∧
        st.serversArray (st.objectsCurrent i) ≠ some serverKey) ∧
    (∀ st5 b, moveObject st serverKey i s = some (st5, b) →
      s ∈ st.objectsHistory i →
      st5.objectsHistory i =
        (st.objectsHistory i).take ((st.objectsHistory i).indexOf s + 1) ∧
      (st5.objectsHistory i).getLast? = some s ∧
      st5.objectsCurrent i = s ∧ b = st.objectsCurrent i) := by
  refine ⟨fun h1 h2 => ?_, ?_, fun st5 b hmv hmem => ?_⟩
  · rw [fillBinOne, h1]
    simp [h2]
  · rw [moverCond]
    simp [decide_eq_true_iff]
  · rw [moveObject] at hmv
    cases hd : st.serversArray (st.objectsCurrent i) with
    | none =>
      rw [hd] at hmv
      cases hmv
    | some donor =>
      rw [hd] at hmv
      simp only [Option.some.injEq] at hmv
      have h5 : (moveRecord st serverKey i s donor).1 = st5 := by rw [hmv]
      have hbb : (moveRecord st serverKey i s donor).2 = b := by rw [hmv]
      refine ⟨?_, ?_, ?_, ?_⟩
      · rw [← h5]
        simp [moveRecord]
      · rw [← h5]
        simp only [moveRecord, Function.update_same]
        exact getLast_take_indexOf hmem
      · rw [← h5]
        simp [moveRecord]
      · rw [← hbb]
        simp [moveRecord]

/-- Constructed instantiation for c6_guard_mover_move: on the hand-built
state the guard returns unchanged, and moving object 7 to slot 9 truncates
its history [4, 9, 3] to [4, 9] and repoints it to slot 9. -/
theorem c6_witness :
    fillBinOne idOracle 1 tinySt 3 0 = some (tinySt, 0, []) ∧
    (moverCond tinySt 0 7 9 = true ↔
      9 ∈ tinySt.objectsHistory 7 ∧
        tinySt.serversArray (tinySt.objectsCurrent 7) ≠ some 0) ∧
    (tinyMove.1.objectsHistory 7 =
        (tinySt.objectsHistory 7).take
          ((tinySt.objectsHistory 7).indexOf 9 + 1) ∧
      (tinyMove.1.objectsHistory 7).getLast? = some 9 ∧
      tinyMove.1.objectsCurrent 7 = 9 ∧
      tinyMove.2 = tinySt.objectsCurrent 7) :=
  ⟨(c6_guard_mover_move idOracle 0 0 tinySt 3 0 7 9).1 (by decide) (by decide),
   (c6_guard_mover_move idOracle 0 0 tinySt 3 0 7 9).2.1,
   (c6_guard_mover_move idOracle 0 0 tinySt 3 0 7 9).2.2 tinyMove.1 tinyMove.2
     rfl (by decide)⟩

/-! ### Arithmetic and list helpers for the invariant proofs -/

theorem sum_update (f : Nat → Int) (n a : Nat) (x : Int) (ha : a < n) :
    ∑ s ∈ Finset.range n, Function.update f a x s =
      (∑ s ∈ Finset.range n, f s) + (x - f a) := by
  have hmem : a ∈ Finset.range n := Finset.mem_range.mpr ha
  rw [Finset.sum_update_of_mem hmem,
    Finset.sum_eq_sum_diff_singleton_add hmem f]
  ring

theorem sum_update_update (f : Nat → Int) (n a b : Nat) (x y : Int)
    (ha : a < n) (hb : b < n) (hab : a ≠ b) :
    ∑ s ∈ Finset.range n,
        Function.update (Function.update f a x) b y s =
      (∑ s ∈ Finset.range n, f s) + (x - f a) + (y - f b) := by
  rw [sum_update _ n b y hb, sum_update f n a x ha,
    Function.update_noteq (Ne.symm hab)]

theorem map_sum_lt_of_mem {l : List Nat} {f g : Nat → Nat} {i : Nat}
    (hi : i ∈ l) (hle : ∀ j ∈ l, g j ≤ f j) (hlt : g i < f i) :
    (l.map g).sum < (l.map f).sum := by
  induction l with
  | nil => cases hi
  | cons a tl ih =>
    simp only [List.map_cons, List.sum_cons]
    rcases List.mem_cons.mp hi with rfl | hi2
    · have hrest : (tl.map g).sum ≤ (tl.map f).sum :=
        List.sum_le_sum (fun j hj => hle j (List.mem_cons_of_mem _ hj))
      omega
    · have h1 : g a ≤ f a := hle a (List.mem_cons_self _ _)
      have h2 := ih hi2 (fun j hj => hle j (List.mem_cons_of_mem _ hj))
      omega

/-! ### Projections of the displacement step -/

theorem mr_scount (st : RJState) (k i s d : Nat) :
    (moveRecord st k i s d).1.serversCount = st.serversCount := rfl

theorem mr_arr (st : RJState) (k i s d : Nat) :
    (moveRecord st k i s d).1.serversArray = st.serversArray := rfl

theorem mr_alen (st : RJState) (k i s d : Nat) :
    (moveRecord st k i s d).1.serversArrayLen = st.serversArrayLen := rfl

theorem mr_toIdx (st : RJState) (k i s d : Nat) :
    (moveRecord st k i s d).1.serversToIdx = st.serversToIdx := rfl

theorem mr_live (st : RJState) (k i s d : Nat) :
    (moveRecord st k i s d).1.liveObjects = st.liveObjects := rfl

theorem mr_ocount (st : RJState) (k i s d : Nat) :
    (moveRecord st k i s d).1.objectsCount = st.objectsCount := rfl

theorem mr_cap (st : RJState) (k i s d : Nat) :
    (moveRecord st k i s d).1.loadCap = st.loadCap := rfl

theorem mr_total (st : RJState) (k i s d : Nat) :
    (moveRecord st k i s d).1.totalObjectsAndPastCount =
      st.totalObjectsAndPastCount := rfl

theorem mr_servers (st : RJState) (k i s d : Nat) :
    (moveRecord st k i s d).1.servers =
      Function.update (Function.update st.servers k (st.servers k + 1)) d
        (Function.update st.servers k (st.servers k + 1) d - 1) := rfl

theorem mr_hist (st : RJState) (k i s d : Nat) :
    (moveRecord st k i s d).1.objectsHistory =
      Function.update st.objectsHistory i
        ((st.objectsHistory i).take ((st.objectsHistory i).indexOf s + 1)) :=
  rfl

theorem mr_current (st : RJState) (k i s d : Nat) :
    (moveRecord st k i s d).1.objectsCurrent =
      Function.update st.objectsCurrent i s := rfl

theorem mr_bin (st : RJState) (k i s d : Nat) :
    (moveRecord st k i s d).2 = st.objectsCurrent i := rfl

theorem skeleton_refl (st : RJState) : SameSkeleton st st :=
  ⟨rfl, rfl, rfl, rfl, rfl, rfl, rfl, rfl⟩

theorem skeleton_trans {a b c : RJState} (h1 : SameSkeleton a b)
    (h2 : SameSkeleton b c) : SameSkeleton a c := by
  constructor
  · rw [h2.scount, h1.scount]
  · rw [h2.arr, h1.arr]
  · rw [h2.alen, h1.alen]
  · rw [h2.toIdx, h1.toIdx]
  · rw [h2.live, h1.live]
  · rw [h2.ocount, h1.ocount]
  · rw [h2.cap, h1.cap]
  · rw [h2.total, h1.total]

/-- Setting only fullFlag and totalFull preserves every wellformedness
clause (none of them mentions those fields). -/
theorem wf_set_flag {st : RJState} (hwf : WF st) (f : Nat → Bool) (c : Int) :
    WF { st with fullFlag := f, totalFull := c } :=
  ⟨hwf.ringValid, hwf.dupsValid, hwf.liveNodup, hwf.currentValid,
   hwf.histLast, hwf.idsFresh, hwf.sumLoads, hwf.countLen⟩

theorem skeleton_set_flag (st : RJState) (f : Nat → Bool) (c : Int) :
    SameSkeleton st { st with fullFlag := f, totalFull := c } :=
  ⟨rfl, rfl, rfl, rfl, rfl, rfl, rfl, rfl⟩

theorem moverCond_iff (st : RJState) (serverKey i s : Nat) :
    moverCond st serverKey i s = true ↔
      s ∈ st.objectsHistory i ∧
        st.serversArray (st.objectsCurrent i) ≠ some serverKey := by
  rw [moverCond]
  simp [decide_eq_true_iff]

theorem moveObject_eq_some {st : RJState} {i : Nat} (serverKey s : Nat)
    {donor : Nat}
    (hd : st.serversArray (st.objectsCurrent i) = some donor) :
    moveObject st serverKey i s =
      some (moveRecord st serverKey i s donor) := by
  unfold moveObject
  rw [hd]

/-- One displacement under the mover conditions: wellformedness and the
skeleton are preserved and the history measure strictly drops (the truncated
history really gets shorter, because the matched slot cannot be the mover's
current slot). -/
theorem moveRecord_wf (st : RJState) (serverKey i s donor : Nat)
    (hwf : WF st) (hi : i ∈ st.liveObjects)
    (hmem : s ∈ st.objectsHistory i)
    (hne : st.serversArray (st.objectsCurrent i) ≠ some serverKey)
    (hd : st.serversArray (st.objectsCurrent i) = some donor)
    (hs : st.serversArray s = some serverKey) :
    WF (moveRecord st serverKey i s donor).1 ∧
    SameSkeleton st (moveRecord st serverKey i s donor).1 ∧
    histMeasure (moveRecord st serverKey i s donor).1 < histMeasure st := by
  have hkc : serverKey < st.serversCount := hwf.ringValid s serverKey hs
  have hdc : donor < st.serversCount := hwf.ringValid _ donor hd
  have hkd : serverKey ≠ donor := by
    intro hEq
    apply hne
    rw [hd, hEq]
  have hidx : (st.objectsHistory i).indexOf s + 1 <
      (st.objectsHistory i).length := by
    rcases Nat.lt_or_ge ((st.objectsHistory i).indexOf s + 1)
        ((st.objectsHistory i).length) with h | hge
    · exact h
    · exfalso
      have htake : (st.objectsHistory i).take
          ((st.objectsHistory i).indexOf s + 1) = st.objectsHistory i :=
        List.take_of_length_le hge
      have h1 := getLast_take_indexOf hmem
      rw [htake, hwf.histLast i hi] at h1
      have h2 : st.objectsCurrent i = s := by
        injection h1
      apply hne
      rw [h2, hs]
  have hlen : ((st.objectsHistory i).take
      ((st.objectsHistory i).indexOf s + 1)).length <
      (st.objectsHistory i).length := by
    rw [List.length_take]
    omega
  refine ⟨?_, ⟨mr_scount .., mr_arr .., mr_alen .., mr_toIdx .., mr_live ..,
    mr_ocount .., mr_cap .., mr_total ..⟩, ?_⟩
  · constructor
    · rw [mr_arr, mr_scount]
      exact hwf.ringValid
    · rw [mr_arr, mr_toIdx]
      exact hwf.dupsValid
    · rw [mr_live]
      exact hwf.liveNodup
    · rw [mr_live, mr_arr, mr_current]
      intro j hj
      by_cases hji : j = i
      · subst hji
        rw [Function.update_same, hs]
        rfl
      · rw [Function.update_noteq hji]
        exact hwf.currentValid j hj
    · rw [mr_live, mr_hist, mr_current]
      intro j hj
      by_cases hji : j = i
      · subst hji
        rw [Function.update_same, Function.update_same]
        exact getLast_take_indexOf hmem
      · rw [Function.update_noteq hji, Function.update_noteq hji]
        exact hwf.histLast j hj
    · rw [mr_live, mr_total]
      exact hwf.idsFresh
    · rw [mr_servers, mr_scount, mr_ocount,
        sum_update_update st.servers st.serversCount serverKey donor _ _
          hkc hdc hkd, Function.update_noteq (Ne.symm hkd)]
      have := hwf.sumLoads
      omega
    · rw [mr_ocount, mr_live]
      exact hwf.countLen
  · rw [histMeasure, histMeasure, mr_live, mr_hist]
    apply map_sum_lt_of_mem hi
    · intro j hj
      by_cases hji : j = i
      · subst hji
        rw [Function.update_same]
        omega
      · rw [Function.update_noteq hji]
    · rw [Function.update_same]
      exact hlen

/-! ### Preservation through the cascade loops -/

theorem scanDups_wf
    (fill : RJState → Nat → Nat → Option (RJState × Nat × List Nat))
    (hfill : FillOK fill) (serverKey i : Nat) :
    ∀ (dups : List Nat) (st : RJState) (t : Nat)
      (res : Bool × RJState × Nat × List Nat),
      scanDups fill serverKey i dups st t = some res →
      WF st → i ∈ st.liveObjects →
      (∀ s ∈ dups, st.serversArray s = some serverKey) →
      WF res.2.1 ∧ SameSkeleton st res.2.1 ∧
        histMeasure res.2.1 ≤ histMeasure st := by
  intro dups
  induction dups with
  | nil =>
    intro st t res h hwf hi hdups
    rw [scanDups] at h
    simp only [Option.some.injEq] at h
    rw [← h]
    exact ⟨hwf, skeleton_refl st, le_refl _⟩
  | cons s rest ih =>
    intro st t res h hwf hi hdups
    rw [scanDups] at h
    by_cases hcond : moverCond st serverKey i s = true
    · rw [if_pos hcond] at h
      obtain ⟨hmem, hne⟩ := (moverCond_iff st serverKey i s).mp hcond
      have hcv := hwf.currentValid i hi
      obtain ⟨donor, hd⟩ := Option.isSome_iff_exists.mp hcv
      have hs : st.serversArray s = some serverKey :=
        hdups s (List.mem_cons_self _ _)
      rw [moveObject_eq_some serverKey s hd, Option.some_bind] at h
      obtain ⟨hwf1, hskel1, hmeas1⟩ :=
        moveRecord_wf st serverKey i s donor hwf hi hmem hne hd hs
      cases hfr : fill (moveRecord st serverKey i s donor).1
          (moveRecord st serverKey i s donor).2 t with
      | none =>
        rw [hfr, Option.none_bind] at h
        cases h
      | some fr =>
        obtain ⟨stf, tf, logf⟩ := fr
        rw [hfr, Option.some_bind] at h
        obtain ⟨hwf2, hskel2, hmeas2⟩ :=
          hfill _ _ _ _ _ _ hfr hwf1
        have hskel02 : SameSkeleton st stf := skeleton_trans hskel1 hskel2
        have hmeas02 : histMeasure stf ≤ histMeasure st :=
          le_trans hmeas2 (le_of_lt hmeas1)
        by_cases hstop : stopCheck serverKey stf = true
        · rw [if_pos hstop] at h
          simp only [Option.some.injEq] at h
          rw [← h]
          refine ⟨wf_set_flag hwf2 _ _, ?_, hmeas02⟩
          exact skeleton_trans hskel02 (skeleton_set_flag stf _ _)
        · rw [if_neg hstop] at h
          cases hrec : scanDups fill serverKey i rest stf tf with
          | none =>
            rw [hrec, Option.map_none'] at h
            cases h
          | some r =>
            obtain ⟨stop3, st3, t3, log3⟩ := r
            rw [hrec, Option.map_some'] at h
            simp only [Option.some.injEq] at h
            have hi3 : i ∈ stf.liveObjects := by
              rw [hskel02.live]
              exact hi
            have hdups3 : ∀ s2 ∈ rest, stf.serversArray s2 = some serverKey := by
              intro s2 hs2
              rw [hskel02.arr]
              exact hdups s2 (List.mem_cons_of_mem _ hs2)
            obtain ⟨hwf3, hskel3, hmeas3⟩ :=
              ih stf tf (stop3, st3, t3, log3) hrec hwf2 hi3 hdups3
            rw [← h]
            exact ⟨hwf3, skeleton_trans hskel02 hskel3,
              le_trans hmeas3 hmeas02⟩
    · rw [if_neg hcond] at h
      exact ih st t res h hwf hi (fun s2 hs2 =>
        hdups s2 (List.mem_cons_of_mem _ hs2))

theorem scanObjs_wf
    (fill : RJState → Nat → Nat → Option (RJState × Nat × List Nat))
    (hfill : FillOK fill) (serverKey : Nat) (dups : List Nat) :
    ∀ (objs : List Nat) (st : RJState) (t : Nat)
      (res : RJState × Nat × List Nat),
      scanObjs fill serverKey dups objs st t = some res →
      WF st →
      (∀ j ∈ objs, j ∈ st.liveObjects) →
      (∀ s ∈ dups, st.serversArray s = some serverKey) →
      WF res.1 ∧ SameSkeleton st res.1 ∧
        histMeasure res.1 ≤ histMeasure st := by
  intro objs
  induction objs with
  | nil =>
    intro st t res h hwf hobjs hdups
    rw [scanObjs] at h
    simp only [Option.some.injEq] at h
    rw [← h]
    exact ⟨hwf, skeleton_refl st, le_refl _⟩
  | cons i rest ih =>
    intro st t res h hwf hobjs hdups
    rw [scanObjs] at h
    cases hsd : scanDups fill serverKey i dups st t with
    | none =>
      rw [hsd, Option.none_bind] at h
      cases h
    | some r =>
      obtain ⟨stop1, st1, t1, log1⟩ := r
      rw [hsd, Option.some_bind] at h
      obtain ⟨hwf1, hskel1, hmeas1⟩ :=
        scanDups_wf fill hfill serverKey i dups st t (stop1, st1, t1, log1)
          hsd hwf (hobjs i (List.mem_cons_self _ _)) hdups
      by_cases hstop : stop1 = true
      · rw [hstop, if_pos rfl] at h
        simp only [Option.some.injEq] at h
        rw [← h]
        exact ⟨hwf1, hskel1, hmeas1⟩
      · have hstop2 : stop1 = false := by
          cases stop1
          · rfl
          · exact absurd rfl hstop
        rw [hstop2, if_neg (by simp)] at h
        cases hrec : scanObjs fill serverKey dups rest st1 t1 with
        | none =>
          rw [hrec, Option.map_none'] at h
          cases h
        | some q =>
          obtain ⟨st2, t2, log2⟩ := q
          rw [hrec, Option.map_some'] at h
          simp only [Option.some.injEq] at h
          have hobjs2 : ∀ j ∈ rest, j ∈ st1.liveObjects := by
            intro j hj
            rw [hskel1.live]
            exact hobjs j (List.mem_cons_of_mem _ hj)
          have hdups2 : ∀ s ∈ dups, st1.serversArray s = some serverKey := by
            intro s hs
            rw [hskel1.arr]
            exact hdups s hs
          obtain ⟨hwf2, hskel2, hmeas2⟩ :=
            ih st1 t1 (st2, t2, log2) hrec hwf1 hobjs2 hdups2
          rw [← h]
          exact ⟨hwf2, skeleton_trans hskel1 hskel2,
            le_trans hmeas2 hmeas1⟩

/-- Success of the fillBinOne cascade preserves wellformedness, never touches
the skeleton fields (ring, registry keys, counts) and never grows the probe
histories. -/
theorem fillBinOne_wf (O : Oracle) (hO : FairShuffles O) :
    ∀ fuel, FillOK (fillBinOne O fuel) := by
  intro fuel
  induction fuel with
  | zero =>
    intro st slot t st2 t2 log h hwf
    rw [fillBinOne] at h
    cases h
  | succ fuel ih =>
    intro st slot t st2 t2 log h hwf
    rw [fillBinOne] at h
    cases harr : st.serversArray slot with
    | none =>
      rw [harr, Option.none_bind] at h
      cases h
    | some serverKey =>
      rw [harr, Option.some_bind] at h
      by_cases hguard : st.servers serverKey ≠ st.loadCap - 1
      · rw [if_pos hguard] at h
        simp only [Option.some.injEq, Prod.mk.injEq] at h
        obtain ⟨h1, h2, h3⟩ := h
        rw [← h1]
        exact ⟨hwf, skeleton_refl st, le_refl _⟩
      · rw [if_neg hguard] at h
        cases hscan : scanObjs (fillBinOne O fuel) serverKey
            (O.shuffle t (st.serversToIdx serverKey))
            (O.shuffle (t + 1) st.liveObjects) st (t + 2) with
        | none =>
          rw [hscan, Option.map_none'] at h
          cases h
        | some r =>
          obtain ⟨st1, t1, log1⟩ := r
          rw [hscan, Option.map_some'] at h
          simp only [Option.some.injEq, Prod.mk.injEq] at h
          obtain ⟨h1, h2, h3⟩ := h
          have hobjs : ∀ j ∈ O.shuffle (t + 1) st.liveObjects,
              j ∈ st.liveObjects := by
            intro j hj
            exact (hO (t + 1) st.liveObjects).mem_iff.mp hj
          have hdups : ∀ s ∈ O.shuffle t (st.serversToIdx serverKey),
              st.serversArray s = some serverKey := by
            intro s hs
            exact hwf.dupsValid serverKey s
              ((hO t (st.serversToIdx serverKey)).mem_iff.mp hs)
          obtain ⟨hwf1, hskel1, hmeas1⟩ :=
            scanObjs_wf (fillBinOne O fuel) ih serverKey _ _ st (t + 2)
              (st1, t1, log1) hscan hwf hobjs hdups
          rw [← h1]
          exact ⟨hwf1, hskel1, hmeas1⟩

/-! ### Fuel sufficiency: the cascade terminates within the history measure -/

theorem scanDups_some
    (fill : RJState → Nat → Nat → Option (RJState × Nat × List Nat))
    (hfillOK : FillOK fill) (N : Nat) (hfillT : FillTotal fill N)
    (serverKey i : Nat) :
    ∀ (dups : List Nat) (st : RJState) (t : Nat),
      WF st → i ∈ st.liveObjects →
      (∀ s ∈ dups, st.serversArray s = some serverKey) →
      histMeasure st ≤ N →
      (scanDups fill serverKey i dups st t).isSome = true := by
  intro dups
  induction dups with
  | nil =>
    intro st t hwf hi hdups hm
    rw [scanDups]
    rfl
  | cons s rest ih =>
    intro st t hwf hi hdups hm
    rw [scanDups]
    by_cases hcond : moverCond st serverKey i s = true
    · rw [if_pos hcond]
      obtain ⟨hmem, hne⟩ := (moverCond_iff st serverKey i s).mp hcond
      obtain ⟨donor, hd⟩ := Option.isSome_iff_exists.mp (hwf.currentValid i hi)
      have hs : st.serversArray s = some serverKey :=
        hdups s (List.mem_cons_self _ _)
      rw [moveObject_eq_some serverKey s hd, Option.some_bind]
      obtain ⟨hwf1, hskel1, hmeas1⟩ :=
        moveRecord_wf st serverKey i s donor hwf hi hmem hne hd hs
      have hbin : ((moveRecord st serverKey i s donor).1.serversArray
          (moveRecord st serverKey i s donor).2).isSome = true := by
        rw [mr_arr, mr_bin, hd]
        rfl
      have hfsome := hfillT (moveRecord st serverKey i s donor).1
        (moveRecord st serverKey i s donor).2 t hwf1 hbin
        (lt_of_lt_of_le hmeas1 hm)
      obtain ⟨fr, hfr⟩ := Option.isSome_iff_exists.mp hfsome
      obtain ⟨stf, tf, logf⟩ := fr
      rw [hfr, Option.some_bind]
      obtain ⟨hwf2, hskel2, hmeas2⟩ := hfillOK _ _ _ _ _ _ hfr hwf1
      by_cases hstop : stopCheck serverKey stf = true
      · rw [if_pos hstop]
        rfl
      · rw [if_neg hstop]
        have hi2 : i ∈ stf.liveObjects := by
          rw [hskel2.live, hskel1.live]
          exact hi
        have hdups2 : ∀ s2 ∈ rest, stf.serversArray s2 = some serverKey := by
          intro s2 hs2
          rw [hskel2.arr, hskel1.arr]
          exact hdups s2 (List.mem_cons_of_mem _ hs2)
        have hm2 : histMeasure stf ≤ N :=
          le_trans hmeas2 (le_trans (le_of_lt hmeas1) hm)
        have := ih stf tf hwf2 hi2 hdups2 hm2
        rw [Option.isSome_map']
        exact this
    · rw [if_neg hcond]
      exact ih st t hwf hi
        (fun s2 hs2 => hdups s2 (List.mem_cons_of_mem _ hs2)) hm

theorem scanObjs_some
    (fill : RJState → Nat → Nat → Option (RJState × Nat × List Nat))
    (hfillOK : FillOK fill) (N : Nat) (hfillT : FillTotal fill N)
    (serverKey : Nat) (dups : List Nat) :
    ∀ (objs : List Nat) (st : RJState) (t : Nat),
      WF st →
      (∀ j ∈ objs, j ∈ st.liveObjects) →
      (∀ s ∈ dups, st.serversArray s = some serverKey) →
      histMeasure st ≤ N →
      (scanObjs fill serverKey dups objs st t).isSome = true := by
  intro objs
  induction objs with
  | nil =>
    intro st t hwf hobjs hdups hm
    rw [scanObjs]
    rfl
  | cons i rest ih =>
    intro st t hwf hobjs hdups hm
    rw [scanObjs]
    have hsome := scanDups_some fill hfillOK N hfillT serverKey i dups st t
      hwf (hobjs i (List.mem_cons_self _ _)) hdups hm
    obtain ⟨r, hr⟩ := Option.isSome_iff_exists.mp hsome
    obtain ⟨stop1, st1, t1, log1⟩ := r
    rw [hr, Option.some_bind]
    obtain ⟨hwf1, hskel1, hmeas1⟩ :=
      scanDups_wf fill hfillOK serverKey i dups st t (stop1, st1, t1, log1)
        hr hwf (hobjs i (List.mem_cons_self _ _)) hdups
    by_cases hstop : stop1 = true
    · rw [hstop, if_pos rfl]
      rfl
    · have hstop2 : stop1 = false := by
        cases stop1
        · rfl
        · exact absurd rfl hstop
      rw [hstop2, if_neg (by simp)]
      have hobjs1 : ∀ j ∈ rest, j ∈ st1.liveObjects := by
        intro j hj
        rw [hskel1.live]
        exact hobjs j (List.mem_cons_of_mem _ hj)
      have hdups1 : ∀ s ∈ dups, st1.serversArray s = some serverKey := by
        intro s hs
        rw [hskel1.arr]
        exact hdups s hs
      have := ih st1 t1 hwf1 hobjs1 hdups1 (le_trans hmeas1 hm)
      rw [Option.isSome_map']
      exact this

/-- Fuel beyond the history measure is enough: fillBinOne with fuel greater
than the total length of all live probe histories cannot run out of fuel. -/
theorem fillBinOne_total (O : Oracle) (hO : FairShuffles O) :
    ∀ fuel, FillTotal (fillBinOne O fuel) fuel := by
  intro fuel
  induction fuel with
  | zero =>
    intro st slot t hwf hslot hm
    exact absurd hm (Nat.not_lt_zero _)
  | succ fuel ih =>
    intro st slot t hwf hslot hm
    rw [fillBinOne]
    obtain ⟨serverKey, harr⟩ := Option.isSome_iff_exists.mp hslot
    rw [harr, Option.some_bind]
    by_cases hguard : st.servers serverKey ≠ st.loadCap - 1
    · rw [if_pos hguard]
      rfl
    · rw [if_neg hguard]
      have hobjs : ∀ j ∈ O.shuffle (t + 1) st.liveObjects,
          j ∈ st.liveObjects := by
        intro j hj
        exact (hO (t + 1) st.liveObjects).mem_iff.mp hj
      have hdups : ∀ s ∈ O.shuffle t (st.serversToIdx serverKey),
          st.serversArray s = some serverKey := by
        intro s hs
        exact hwf.dupsValid serverKey s
          ((hO t (st.serversToIdx serverKey)).mem_iff.mp hs)
      have := scanObjs_some (fillBinOne O fuel) (fillBinOne_wf O hO fuel)
        fuel ih serverKey _ _ st (t + 2) hwf hobjs hdups
        (Nat.le_of_lt_succ hm)
      rw [Option.isSome_map']
      exact this

/-! ### Claim C4 (confirmed): placement records all probes and commits -/

/-- Characterisation of the probe loop: on success, the recorded probe list
is exactly the successive draws r k, r (k+1), ... modulo the ring length, in
draw order; every probe before the last was ineligible, and the last (the
accepted slot) is eligible. -/
theorem probeLoop_spec (st : RJState) (r : Nat → Nat) :
    ∀ fuel k probes acc k2,
      probeLoop st r fuel k = some (probes, acc, k2) →
      ∃ n, probes = (List.range (n + 1)).map
          (fun j => r (k + j) % st.serversArrayLen) ∧
        (∀ j, j < n → eligible st (r (k + j) % st.serversArrayLen) = false) ∧
        eligible st acc = true ∧
        acc = r (k + n) % st.serversArrayLen ∧ k2 = k + n + 1 := by
  intro fuel
  induction fuel with
  | zero =>
    intro k probes acc k2 h
    rw [probeLoop] at h
    cases h
  | succ fuel ih =>
    intro k probes acc k2 h
    rw [probeLoop] at h
    by_cases he : eligible st (r k % st.serversArrayLen) = true
    · rw [if_pos he] at h
      simp only [Option.some.injEq, Prod.mk.injEq] at h
      obtain ⟨h1, h2, h3⟩ := h
      refine ⟨0, ?_, by omega, ?_, ?_, by omega⟩
      · rw [← h1]
        rfl
      · rw [← h2]
        simpa using he
      · rw [← h2]
        simp
    · rw [if_neg he] at h
      cases hrec : probeLoop st r fuel (k + 1) with
      | none =>
        rw [hrec] at h
        cases h
      | some res =>
        obtain ⟨probes1, acc1, k21⟩ := res
        rw [hrec] at h
        simp only [Option.some.injEq, Prod.mk.injEq] at h
        obtain ⟨h1, h2, h3⟩ := h
        obtain ⟨n, hp, hf, hel, hacc, hk⟩ := ih (k + 1) probes1 acc1 k21 hrec
        refine ⟨n + 1, ?_, ?_, ?_, ?_, by omega⟩
        · rw [← h1, hp]
          have hr : List.range (n + 1 + 1) =
              0 :: (List.range (n + 1)).map Nat.succ :=
            List.range_succ_eq_map (n + 1)
          rw [hr, List.map_cons, List.map_map]
          have hhead : r k % st.serversArrayLen =
              r (k + 0) % st.serversArrayLen := by
            rw [Nat.add_zero]
          have htail : (List.range (n + 1)).map
                (fun j => r (k + 1 + j) % st.serversArrayLen) =
              (List.range (n + 1)).map
                ((fun j => r (k + j) % st.serversArrayLen) ∘ Nat.succ) := by
            refine List.map_congr_left (fun j hj => ?_)
            show r (k + 1 + j) % st.serversArrayLen =
              r (k + Nat.succ j) % st.serversArrayLen
            have harg : k + 1 + j = k + Nat.succ j := by omega
            rw [harg]
          rw [← hhead, ← htail]
        · intro j hj
          cases j with
          | zero =>
            rw [Nat.add_zero]
            simpa using he
          | succ m =>
            have harg : k + (m + 1) = k + 1 + m := by omega
            rw [harg]
            exact hf m (by omega)
        · rw [← h2]
          exact hel
        · rw [← h2, hacc]
          have harg : k + 1 + n = k + (n + 1) := by omega
          rw [harg]

theorem cr_scount (st : RJState) (o : Nat) (p : List Nat) (a c : Nat) :
    (commitRecord st o p a c).serversCount = st.serversCount := rfl

theorem cr_arr (st : RJState) (o : Nat) (p : List Nat) (a c : Nat) :
    (commitRecord st o p a c).serversArray = st.serversArray := rfl

theorem cr_alen (st : RJState) (o : Nat) (p : List Nat) (a c : Nat) :
    (commitRecord st o p a c).serversArrayLen = st.serversArrayLen := rfl

theorem cr_toIdx (st : RJState) (o : Nat) (p : List Nat) (a c : Nat) :
    (commitRecord st o p a c).serversToIdx = st.serversToIdx := rfl

theorem cr_live (st : RJState) (o : Nat) (p : List Nat) (a c : Nat) :
    (commitRecord st o p a c).liveObjects = st.liveObjects := rfl

theorem cr_ocount (st : RJState) (o : Nat) (p : List Nat) (a c : Nat) :
    (commitRecord st o p a c).objectsCount = st.objectsCount := rfl

theorem cr_cap (st : RJState) (o : Nat) (p : List Nat) (a c : Nat) :
    (commitRecord st o p a c).loadCap = st.loadCap := rfl

theorem cr_total (st : RJState) (o : Nat) (p : List Nat) (a c : Nat) :
    (commitRecord st o p a c).totalObjectsAndPastCount =
      st.totalObjectsAndPastCount := rfl

theorem cr_servers (st : RJState) (o : Nat) (p : List Nat) (a c : Nat) :
    (commitRecord st o p a c).servers =
      Function.update st.servers c (st.servers c + 1) := rfl

theorem cr_contains (st : RJState) (o : Nat) (p : List Nat) (a c : Nat) :
    (commitRecord st o p a c).serversContains =
      Function.update st.serversContains c
        (insert o (st.serversContains c)) := rfl

theorem cr_flag (st : RJState) (o : Nat) (p : List Nat) (a c : Nat) :
    (commitRecord st o p a c).fullFlag =
      if st.servers c + 1 = st.loadCap then
        Function.update st.fullFlag c true else st.fullFlag := rfl

theorem cr_hist (st : RJState) (o : Nat) (p : List Nat) (a c : Nat) :
    (commitRecord st o p a c).objectsHistory =
      Function.update st.objectsHistory o p := rfl

theorem cr_current (st : RJState) (o : Nat) (p : List Nat) (a c : Nat) :
    (commitRecord st o p a c).objectsCurrent =
      Function.update st.objectsCurrent o a := rfl

theorem rangeMap_getLast (f : Nat → Nat) (n : Nat) :
    ((List.range (n + 1)).map f).getLast? = some (f n) := by
  rw [List.range_succ, List.map_append]
  exact List.getLast?_concat _

/-- Success of placeOne: some prefix of the draw stream was rejected, the
next draw was accepted, and the state change is the commitRecord of the
accepting slot and its (non-full) server. -/
theorem placeOne_spec (st : RJState) (r : Nat → Nat) (fuel objId k : Nat)
    (sta : RJState) (k1 : Nat)
    (h : placeOne st r fuel objId k = some (sta, k1)) :
    ∃ n acc curServer,
      (∀ j, j < n → eligible st (r (k + j) % st.serversArrayLen) = false) ∧
      eligible st (r (k + n) % st.serversArrayLen) = true ∧
      acc = r (k + n) % st.serversArrayLen ∧
      st.serversArray acc = some curServer ∧
      st.fullFlag curServer = false ∧
      sta = commitRecord st objId
        ((List.range (n + 1)).map (fun j => r (k + j) % st.serversArrayLen))
        acc curServer ∧
      k1 = k + n + 1 := by
  rw [placeOne] at h
  cases hq : probeLoop st r fuel k with
  | none =>
    rw [hq, Option.none_bind] at h
    cases h
  | some res =>
    obtain ⟨probes, acc, k2⟩ := res
    rw [hq, Option.some_bind] at h
    obtain ⟨n, hprobes, hfail, hel, hacc, hk⟩ :=
      probeLoop_spec st r fuel k probes acc k2 hq
    have helB := hel
    rw [eligible] at helB
    cases hcur : st.serversArray acc with
    | none =>
      rw [hcur] at helB
      cases helB
    | some curServer =>
      rw [hcur] at helB
      have hfull : st.fullFlag curServer = false := by
        simpa using helB
      have hcommit : commitPlacement st objId probes acc =
          some (commitRecord st objId probes acc curServer) := by
        unfold commitPlacement
        rw [hcur]
      rw [hcommit, Option.some_bind] at h
      have h2 : some (commitRecord st objId probes acc curServer, k2) =
          some (sta, k1) := h
      simp only [Option.some.injEq, Prod.mk.injEq] at h2
      obtain ⟨hsta, hk1⟩ := h2
      refine ⟨n, acc, curServer, hfail, ?_, hacc, hcur, hfull, ?_, by omega⟩
      · rw [← hacc]
        exact hel
      · rw [← hsta, hprobes]

/-- C4: full characterisation of addOneObject on success.  Every probed slot
(the successive random draws) is appended to the fresh object's history in
probe order, failing probes included; probing repeats until a slot owned by
a non-full server appears; on acceptance the object's current slot is that
slot (the last history entry), the owner's load is incremented, the object
joins its containedObjects, and the full flag of the owner ends up true
exactly when the new load equals loadCap.  The same probeLoop/commitPlacement
pair implements the per-object placements of the initial load in start. -/
theorem c4_addOneObject_placement (st : RJState) (r : Nat → Nat) (fuel : Nat)
    (st2 : RJState) (h : addOneObject st r fuel = some st2) :
    ∃ n curServer,
      (∀ j, j < n → eligible st (r j % st.serversArrayLen) = false) ∧
      eligible st (r n % st.serversArrayLen) = true ∧
      st.serversArray (r n % st.serversArrayLen) = some curServer ∧
      st2.objectsHistory st.totalObjectsAndPastCount =
        (List.range (n + 1)).map (fun j => r j % st.serversArrayLen) ∧
      st2.objectsCurrent st.totalObjectsAndPastCount =
        r n % st.serversArrayLen ∧
      (st2.objectsHistory st.totalObjectsAndPastCount).getLast? =
        some (st2.objectsCurrent st.totalObjectsAndPastCount) ∧
      st2.servers curServer = st.servers curServer + 1 ∧
      st2.serversContains curServer =
        insert st.totalObjectsAndPastCount (st.serversContains curServer) ∧
      st2.fullFlag curServer =
        decide (st.servers curServer + 1 = st.loadCap) ∧
      st2.liveObjects = st.liveObjects ++ [st.totalObjectsAndPastCount] ∧
      st2.objectsCount = st.objectsCount + 1 ∧
      st2.totalObjectsAndPastCount = st.totalObjectsAndPastCount + 1 := by
  rw [addOneObject] at h
  cases hp : placeOne st r fuel st.totalObjectsAndPastCount 0 with
  | none =>
    rw [hp, Option.map_none'] at h
    cases h
  | some res =>
    obtain ⟨st1, k1⟩ := res
    rw [hp, Option.map_some'] at h
    simp only [Option.some.injEq] at h
    obtain ⟨n, acc, curServer, hfail, hel, hacc, hcur, hfull, hsta, hk1⟩ :=
      placeOne_spec st r fuel st.totalObjectsAndPastCount 0 st1 k1 hp
    refine ⟨n, curServer, ?_, ?_, ?_, ?_, ?_, ?_, ?_, ?_, ?_, ?_, ?_, ?_⟩
    · intro j hj
      have := hfail j hj
      rwa [Nat.zero_add] at this
    · have := hel
      rwa [Nat.zero_add] at this
    · rw [← Nat.zero_add n, ← hacc]
      exact hcur
    · rw [← h]
      show st1.objectsHistory st.totalObjectsAndPastCount = _
      rw [hsta, cr_hist, Function.update_same]
      refine List.map_congr_left (fun j hj => ?_)
      rw [Nat.zero_add]
    · rw [← h]
      show st1.objectsCurrent st.totalObjectsAndPastCount = _
      rw [hsta, cr_current, Function.update_same, hacc, Nat.zero_add]
    · rw [← h]
      show (st1.objectsHistory st.totalObjectsAndPastCount).getLast? =
        some (st1.objectsCurrent st.totalObjectsAndPastCount)
      rw [hsta, cr_hist, cr_current, Function.update_same,
        Function.update_same, rangeMap_getLast, hacc]
    · rw [← h]
      show st1.servers curServer = _
      rw [hsta, cr_servers, Function.update_same]
    · rw [← h]
      show st1.serversContains curServer = _
      rw [hsta, cr_contains, Function.update_same]
    · rw [← h]
      show st1.fullFlag curServer = _
      rw [hsta, cr_flag]
      by_cases hcap : st.servers curServer + 1 = st.loadCap
      · rw [if_pos hcap, Function.update_same]
        simp [hcap]
      · rw [if_neg hcap]
        simp [hfull, hcap]
    · rw [← h]
      show st1.liveObjects ++ [st.totalObjectsAndPastCount] = _
      rw [hsta, cr_live]
    · rw [← h]
      show st1.objectsCount + 1 = _
      rw [hsta, cr_ocount]
    · rw [← h]

/-- Wellformedness is preserved by addOneObject; the object count grows by
one. -/
theorem addOneObject_wf (st : RJState) (r : Nat → Nat) (fuel : Nat)
    (st2 : RJState) (h : addOneObject st r fuel = some st2) (hwf : WF st) :
    WF st2 ∧ st2.serversCount = st.serversCount ∧
      st2.objectsCount = st.objectsCount + 1 ∧
      st2.liveObjects.length = st.liveObjects.length + 1 := by
  rw [addOneObject] at h
  cases hp : placeOne st r fuel st.totalObjectsAndPastCount 0 with
  | none =>
    rw [hp, Option.map_none'] at h
    cases h
  | some res =>
    obtain ⟨st1, k1⟩ := res
    rw [hp, Option.map_some'] at h
    simp only [Option.some.injEq] at h
    obtain ⟨n, acc, curServer, hfail, hel, hacc, hcur, hfull, hsta, hk1⟩ :=
      placeOne_spec st r fuel st.totalObjectsAndPastCount 0 st1 k1 hp
    have hnew : st.totalObjectsAndPastCount ∉ st.liveObjects := by
      intro hmem
      exact absurd (hwf.idsFresh _ hmem) (lt_irrefl _)
    have hcount : curServer < st.serversCount := hwf.ringValid acc curServer hcur
    subst hsta
    rw [← h]
    refine ⟨⟨?_, ?_, ?_, ?_, ?_, ?_, ?_, ?_⟩, rfl, rfl, ?_⟩
    · exact hwf.ringValid
    · exact hwf.dupsValid
    · show (st.liveObjects ++ [st.totalObjectsAndPastCount]).Nodup
      rw [List.nodup_append]
      refine ⟨hwf.liveNodup, List.nodup_singleton _, ?_⟩
      intro a ha hb
      rw [List.mem_singleton] at hb
      rw [hb] at ha
      exact hnew ha
    · intro j hj
      have hj2 : j ∈ st.liveObjects ++ [st.totalObjectsAndPastCount] := hj
      rw [List.mem_append, List.mem_singleton] at hj2
      show (st.serversArray
          (Function.update st.objectsCurrent st.totalObjectsAndPastCount acc
            j)).isSome = true
      rcases hj2 with hj2 | hj2
      · have hne : j ≠ st.totalObjectsAndPastCount := by
          intro hEq
          rw [hEq] at hj2
          exact hnew hj2
        rw [Function.update_noteq hne]
        exact hwf.currentValid j hj2
      · rw [hj2, Function.update_same, hcur]
        rfl
    · intro j hj
      have hj2 : j ∈ st.liveObjects ++ [st.totalObjectsAndPastCount] := hj
      rw [List.mem_append, List.mem_singleton] at hj2
      show (Function.update st.objectsHistory st.totalObjectsAndPastCount
          ((List.range (n + 1)).map
            (fun j => r (0 + j) % st.serversArrayLen)) j).getLast? =
        some (Function.update st.objectsCurrent st.totalObjectsAndPastCount
          acc j)
      rcases hj2 with hj2 | hj2
      · have hne : j ≠ st.totalObjectsAndPastCount := by
          intro hEq
          rw [hEq] at hj2
          exact hnew hj2
        rw [Function.update_noteq hne, Function.update_noteq hne]
        exact hwf.histLast j hj2
      · rw [hj2, Function.update_same, Function.update_same,
          rangeMap_getLast, hacc]
    · intro j hj
      have hj2 : j ∈ st.liveObjects ++ [st.totalObjectsAndPastCount] := hj
      rw [List.mem_append, List.mem_singleton] at hj2
      show j < st.totalObjectsAndPastCount + 1
      rcases hj2 with hj2 | hj2
      · exact Nat.lt_succ_of_lt (hwf.idsFresh j hj2)
      · rw [hj2]
        exact Nat.lt_succ_self _
    · show ∑ s ∈ Finset.range st.serversCount,
          Function.update st.servers curServer (st.servers curServer + 1) s =
        st.objectsCount + 1
      rw [sum_update st.servers st.serversCount curServer _ hcount]
      have := hwf.sumLoads
      omega
    · show st.objectsCount + 1 =
        ((st.liveObjects ++ [st.totalObjectsAndPastCount]).length : Int)
      rw [List.length_append, List.length_singleton]
      have := hwf.countLen
      push_cast
      omega
    · show (st.liveObjects ++ [st.totalObjectsAndPastCount]).length =
        st.liveObjects.length + 1
      rw [List.length_append, List.length_singleton]

/-- Concrete instantiation for c4_addOneObject_placement: adding an object to
the exStart5 state with draw stream 9, 5 probes the empty slot 9, rejects
it, accepts slot 5, and commits the placement. -/
theorem c4_witness :
    ∃ n curServer,
      (∀ j, j < n →
        eligible exSt5 (str [9, 5] j % exSt5.serversArrayLen) = false) ∧
      eligible exSt5 (str [9, 5] n % exSt5.serversArrayLen) = true ∧
      exSt5.serversArray (str [9, 5] n % exSt5.serversArrayLen) =
        some curServer ∧
      exAdd4St.objectsHistory exSt5.totalObjectsAndPastCount =
        (List.range (n + 1)).map
          (fun j => str [9, 5] j % exSt5.serversArrayLen) ∧
      exAdd4St.objectsCurrent exSt5.totalObjectsAndPastCount =
        str [9, 5] n % exSt5.serversArrayLen ∧
      (exAdd4St.objectsHistory exSt5.totalObjectsAndPastCount).getLast? =
        some (exAdd4St.objectsCurrent exSt5.totalObjectsAndPastCount) ∧
      exAdd4St.servers curServer = exSt5.servers curServer + 1 ∧
      exAdd4St.serversContains curServer =
        insert exSt5.totalObjectsAndPastCount
          (exSt5.serversContains curServer) ∧
      exAdd4St.fullFlag curServer =
        decide (exSt5.servers curServer + 1 = exSt5.loadCap) ∧
      exAdd4St.liveObjects =
        exSt5.liveObjects ++ [exSt5.totalObjectsAndPastCount] ∧
      exAdd4St.objectsCount = exSt5.objectsCount + 1 ∧
      exAdd4St.totalObjectsAndPastCount =
        exSt5.totalObjectsAndPastCount + 1 :=
  c4_addOneObject_placement exSt5 (str [9, 5]) 10 exAdd4St rfl

/-! ### Preservation through removeOneObject -/

theorem removeRecord_wf (st : RJState) (objectNum serverKey : Nat)
    (hwf : WF st) (hmem : objectNum ∈ st.liveObjects)
    (harr : st.serversArray (st.objectsCurrent objectNum) = some serverKey) :
    WF (removeRecord st objectNum serverKey) := by
  have hcount : serverKey < st.serversCount := hwf.ringValid _ _ harr
  refine ⟨?_, ?_, ?_, ?_, ?_, ?_, ?_, ?_⟩
  · exact hwf.ringValid
  · exact hwf.dupsValid
  · show (st.liveObjects.erase objectNum).Nodup
    exact hwf.liveNodup.erase _
  · intro j hj
    exact hwf.currentValid j (List.mem_of_mem_erase hj)
  · intro j hj
    exact hwf.histLast j (List.mem_of_mem_erase hj)
  · intro j hj
    exact hwf.idsFresh j (List.mem_of_mem_erase hj)
  · show ∑ s ∈ Finset.range st.serversCount,
        Function.update st.servers serverKey (st.servers serverKey - 1) s =
      st.objectsCount - 1
    rw [sum_update st.servers st.serversCount serverKey _ hcount]
    have := hwf.sumLoads
    omega
  · show st.objectsCount - 1 =
      ((st.liveObjects.erase objectNum).length : Int)
    rw [List.length_erase_of_mem hmem]
    have h1 := hwf.countLen
    have h2 : 1 ≤ st.liveObjects.length := List.length_pos_of_mem hmem
    rw [Nat.cast_sub h2]
    omega

/-- Wellformedness is preserved by removeById; the object count drops by
one. -/
theorem removeById_wf (O : Oracle) (hO : FairShuffles O) (fuel : Nat)
    (st : RJState) (objectNum : Nat) (st2 : RJState) (log : List Nat)
    (h : removeById O fuel st objectNum = some (st2, log)) (hwf : WF st) :
    WF st2 ∧ st2.serversCount = st.serversCount ∧
      st2.objectsCount = st.objectsCount - 1 ∧
      st2.liveObjects.length + 1 = st.liveObjects.length := by
  by_cases hmem : objectNum ∈ st.liveObjects
  · rw [removeById, if_pos hmem] at h
    cases harr : st.serversArray (st.objectsCurrent objectNum) with
    | none =>
      rw [harr, Option.none_bind] at h
      cases h
    | some serverKey =>
      rw [harr, Option.some_bind] at h
      have h2 : (if (removeRecord st objectNum serverKey).fullFlag serverKey
          then (fillBinOne O fuel
              (clearFlag serverKey (removeRecord st objectNum serverKey))
              (st.objectsCurrent objectNum) 0).map (fun r => (r.1, r.2.2))
          else some (removeRecord st objectNum serverKey, [])) =
          some (st2, log) := h
      have hwf1 := removeRecord_wf st objectNum serverKey hwf hmem harr
      have hlen1 : (removeRecord st objectNum serverKey).liveObjects.length + 1
          = st.liveObjects.length := by
        show (st.liveObjects.erase objectNum).length + 1 = _
        rw [List.length_erase_of_mem hmem]
        have := List.length_pos_of_mem hmem
        omega
      by_cases hflag :
          (removeRecord st objectNum serverKey).fullFlag serverKey = true
      · rw [if_pos hflag] at h2
        cases hfill : fillBinOne O fuel
            (clearFlag serverKey (removeRecord st objectNum serverKey))
            (st.objectsCurrent objectNum) 0 with
        | none =>
          rw [hfill, Option.map_none'] at h2
          cases h2
        | some rr =>
          obtain ⟨st3, t3, log3⟩ := rr
          rw [hfill, Option.map_some'] at h2
          simp only [Option.some.injEq, Prod.mk.injEq] at h2
          obtain ⟨h31, h32⟩ := h2
          have hwf2 : WF (clearFlag serverKey
              (removeRecord st objectNum serverKey)) :=
            wf_set_flag hwf1 _ _
          obtain ⟨hwf3, hskel3, _⟩ :=
            fillBinOne_wf O hO fuel _ _ _ _ _ _ hfill hwf2
          rw [← h31]
          refine ⟨hwf3, ?_, ?_, ?_⟩
          · rw [hskel3.scount]
            rfl
          · rw [hskel3.ocount]
            rfl
          · rw [hskel3.live]
            exact hlen1
      · rw [if_neg hflag] at h2
        simp only [Option.some.injEq, Prod.mk.injEq] at h2
        obtain ⟨h31, h32⟩ := h2
        rw [← h31]
        exact ⟨hwf1, rfl, rfl, hlen1⟩
  · rw [removeById, if_neg hmem] at h
    cases h

theorem removeOneObject_wf (O : Oracle) (hO : FairShuffles O) (fuel : Nat)
    (st : RJState) (st2 : RJState) (log : List Nat)
    (h : removeOneObject O fuel st = some (st2, log)) (hwf : WF st) :
    WF st2 ∧ st2.serversCount = st.serversCount ∧
      st2.objectsCount = st.objectsCount - 1 ∧
      st2.liveObjects.length + 1 = st.liveObjects.length := by
  rw [removeOneObject] at h
  by_cases hemp : st.liveObjects.isEmpty
  · rw [if_pos hemp] at h
    cases h
  · rw [if_neg hemp] at h
    exact removeById_wf O hO fuel st _ st2 log h hwf

/-! ### Wellformedness of the initial load -/

theorem sampleEmptySlot_spec (r : Nat → Nat) (arr : Nat → Option Nat)
    (len : Nat) :
    ∀ fuel k cur k1, sampleEmptySlot r arr len fuel k = some (cur, k1) →
      arr cur = none := by
  intro fuel
  induction fuel with
  | zero =>
    intro k cur k1 h
    rw [sampleEmptySlot] at h
    cases h
  | succ fuel ih =>
    intro k cur k1 h
    rw [sampleEmptySlot] at h
    by_cases h0 : arr (r k % len) = none
    · rw [if_pos h0] at h
      simp only [Option.some.injEq, Prod.mk.injEq] at h
      obtain ⟨h1, h2⟩ := h
      rw [← h1]
      exact h0
    · rw [if_neg h0] at h
      exact ih (k + 1) cur k1 h

theorem assignDups_spec (r : Nat → Nat) (len i fuel : Nat) :
    ∀ (d : Nat) (arr : Nat → Option Nat) (k : Nat) arr2 ds k2,
      assignDups r len i fuel d arr k = some (arr2, ds, k2) →
      (∀ n s, arr n = some s → arr2 n = some s) ∧
      (∀ n s, arr2 n = some s → arr n = some s ∨ s = i) ∧
      (∀ j ∈ ds, arr2 j = some i) := by
  intro d
  induction d with
  | zero =>
    intro arr k arr2 ds k2 h
    rw [assignDups] at h
    simp only [Option.some.injEq, Prod.mk.injEq] at h
    obtain ⟨h1, h2, h3⟩ := h
    subst h1
    subst h2
    exact ⟨fun n s hs => hs, fun n s hs => Or.inl hs,
      fun j hj => absurd hj (List.not_mem_nil _)⟩
  | succ d ih =>
    intro arr k arr2 ds k2 h
    rw [assignDups] at h
    cases hsam : sampleEmptySlot r arr len fuel k with
    | none =>
      rw [hsam, Option.none_bind] at h
      cases h
    | some ck =>
      obtain ⟨cur, k1⟩ := ck
      rw [hsam, Option.some_bind] at h
      have hempty : arr cur = none :=
        sampleEmptySlot_spec r arr len fuel k cur k1 hsam
      cases hrec : assignDups r len i fuel d
          (Function.update arr cur (some i)) k1 with
      | none =>
        rw [hrec, Option.none_bind] at h
        cases h
      | some adk =>
        obtain ⟨arr3, ds3, k3⟩ := adk
        rw [hrec, Option.some_bind] at h
        simp only [Option.some.injEq, Prod.mk.injEq] at h
        obtain ⟨h1, h2, h3⟩ := h
        obtain ⟨ih1, ih2, ih3⟩ := ih _ k1 arr3 ds3 k3 hrec
        subst h1
        refine ⟨?_, ?_, ?_⟩
        · intro n s hs
          apply ih1
          have hne : n ≠ cur := by
            intro hEq
            rw [hEq, hempty] at hs
            cases hs
          rw [Function.update_noteq hne]
          exact hs
        · intro n s hs
          rcases ih2 n s hs with h4 | h4
          · by_cases hne : n = cur
            · subst hne
              rw [Function.update_same] at h4
              injection h4 with h5
              exact Or.inr h5.symm
            · rw [Function.update_noteq hne] at h4
              exact Or.inl h4
          · exact Or.inr h4
        · intro j hj
          rw [← h2] at hj
          rcases List.mem_cons.mp hj with rfl | hj2
          · apply ih1
            rw [Function.update_same]
          · exact ih3 j hj2

theorem assignServers_spec (r : Nat → Nat) (len dups fuel : Nat) :
    ∀ (L : List Nat) (arr : Nat → Option Nat) (toIdx : Nat → List Nat)
      (k : Nat) arr2 toIdx2 k2,
      assignServers r len dups fuel L arr toIdx k =
        some (arr2, toIdx2, k2) →
      L.Nodup →
      (∀ n s, arr n = some s → arr2 n = some s) ∧
      (∀ n s, arr2 n = some s → arr n = some s ∨ s ∈ L) ∧
      (∀ s, s ∉ L → toIdx2 s = toIdx s) ∧
      (∀ s, s ∈ L → ∀ j ∈ toIdx2 s, arr2 j = some s) := by
  intro L
  induction L with
  | nil =>
    intro arr toIdx k arr2 toIdx2 k2 h hnd
    rw [assignServers] at h
    simp only [Option.some.injEq, Prod.mk.injEq] at h
    obtain ⟨h1, h2, h3⟩ := h
    subst h1
    subst h2
    exact ⟨fun n s hs => hs, fun n s hs => Or.inl hs, fun s hs => rfl,
      fun s hs => absurd hs (List.not_mem_nil _)⟩
  | cons i rest ih =>
    intro arr toIdx k arr2 toIdx2 k2 h hnd
    rw [assignServers] at h
    rw [List.nodup_cons] at hnd
    obtain ⟨hir, hrest⟩ := hnd
    cases hdup : assignDups r len i fuel dups arr k with
    | none =>
      rw [hdup, Option.none_bind] at h
      cases h
    | some adk =>
      obtain ⟨arr1, ds, k1⟩ := adk
      rw [hdup, Option.some_bind] at h
      obtain ⟨d1, d2, d3⟩ :=
        assignDups_spec r len i fuel dups arr k arr1 ds k1 hdup
      obtain ⟨s1, s2, s3, s4⟩ :=
        ih arr1 (Function.update toIdx i ds) k1 arr2 toIdx2 k2 h hrest
      refine ⟨?_, ?_, ?_, ?_⟩
      · exact fun n s hs => s1 n s (d1 n s hs)
      · intro n s hs
        rcases s2 n s hs with h4 | h4
        · rcases d2 n s h4 with h5 | h5
          · exact Or.inl h5
          · exact Or.inr (by rw [h5]; exact List.mem_cons_self _ _)
        · exact Or.inr (List.mem_cons_of_mem _ h4)
      · intro s hs
        have hsi : s ≠ i := by
          intro hEq
          exact hs (hEq ▸ List.mem_cons_self _ _)
        have hsr : s ∉ rest := fun hr => hs (List.mem_cons_of_mem _ hr)
        rw [s3 s hsr, Function.update_noteq hsi]
      · intro s hs j hj
        rcases List.mem_cons.mp hs with rfl | hs2
        · have hts : toIdx2 s = ds := by
            rw [s3 s hir, Function.update_same]
          rw [hts] at hj
          exact s1 j s (d3 j hj)
        · exact s4 s hs2 j hj

theorem placeAll_spec (r : Nat → Nat) (fuel : Nat) :
    ∀ (L : List Nat) (st : RJState) (k : Nat) (st2 : RJState) (k2 : Nat),
      placeAll r fuel L st k = some (st2, k2) → L.Nodup →
      (∀ n s, st.serversArray n = some s → s < st.serversCount) →
      (st2.serversArray = st.serversArray ∧
        st2.serversToIdx = st.serversToIdx ∧
        st2.serversCount = st.serversCount ∧
        st2.serversArrayLen = st.serversArrayLen ∧
        st2.liveObjects = st.liveObjects ∧
        st2.objectsCount = st.objectsCount ∧
        st2.totalObjectsAndPastCount = st.totalObjectsAndPastCount) ∧
      (∀ j, j ∉ L → st2.objectsHistory j = st.objectsHistory j ∧
        st2.objectsCurrent j = st.objectsCurrent j) ∧
      (∀ j ∈ L, (st2.serversArray (st2.objectsCurrent j)).isSome = true ∧
        (st2.objectsHistory j).getLast? = some (st2.objectsCurrent j)) ∧
      ∑ s ∈ Finset.range st.serversCount, st2.servers s =
        (∑ s ∈ Finset.range st.serversCount, st.servers s) +
          (L.length : Int) := by
  intro L
  induction L with
  | nil =>
    intro st k st2 k2 h hnd hring
    rw [placeAll] at h
    simp only [Option.some.injEq, Prod.mk.injEq] at h
    obtain ⟨h1, h2⟩ := h
    subst h1
    refine ⟨⟨rfl, rfl, rfl, rfl, rfl, rfl, rfl⟩,
      fun j hj => ⟨rfl, rfl⟩, fun j hj => absurd hj (List.not_mem_nil _), ?_⟩
    simp
  | cons i rest ih =>
    intro st k st2 k2 h hnd hring
    rw [placeAll] at h
    rw [List.nodup_cons] at hnd
    obtain ⟨hir, hrest⟩ := hnd
    cases hp : placeOne st r fuel i k with
    | none =>
      rw [hp, Option.none_bind] at h
      cases h
    | some sk =>
      obtain ⟨sta, k1⟩ := sk
      rw [hp, Option.some_bind] at h
      obtain ⟨n, acc, curServer, hfail, hel, hacc, hcur, hfull, hsta, hk1⟩ :=
        placeOne_spec st r fuel i k sta k1 hp
      subst hsta
      have h2 : placeAll r fuel rest
          (commitRecord st i ((List.range (n + 1)).map
            (fun j => r (k + j) % st.serversArrayLen)) acc curServer) k1 =
          some (st2, k2) := h
      have hringA : ∀ n2 s, (commitRecord st i
          ((List.range (n + 1)).map
            (fun j => r (k + j) % st.serversArrayLen)) acc
            curServer).serversArray n2 = some s →
          s < (commitRecord st i
            ((List.range (n + 1)).map
              (fun j => r (k + j) % st.serversArrayLen)) acc
            curServer).serversCount := by
        rw [cr_arr, cr_scount]
        exact hring
      obtain ⟨q1, q2, q3, q4⟩ := ih _ k1 st2 k2 h2 hrest hringA
      obtain ⟨q11, q12, q13, q14, q15, q16, q17⟩ := q1
      rw [cr_arr] at q11
      rw [cr_toIdx] at q12
      rw [cr_scount] at q13
      rw [cr_alen] at q14
      rw [cr_live] at q15
      rw [cr_ocount] at q16
      rw [cr_total] at q17
      have histq : ∀ j, j ∉ rest →
          st2.objectsHistory j = Function.update st.objectsHistory i
            ((List.range (n + 1)).map
              (fun j2 => r (k + j2) % st.serversArrayLen)) j ∧
          st2.objectsCurrent j =
            Function.update st.objectsCurrent i acc j := by
        intro j hj
        have := q2 j hj
        rwa [cr_hist, cr_current] at this
      refine ⟨⟨q11, q12, q13, q14, q15, q16, q17⟩, ?_, ?_, ?_⟩
      · intro j hj
        have hji : j ≠ i := by
          intro hEq
          exact hj (hEq ▸ List.mem_cons_self _ _)
        have hjr : j ∉ rest := fun hr => hj (List.mem_cons_of_mem _ hr)
        obtain ⟨e1, e2⟩ := histq j hjr
        rw [Function.update_noteq hji] at e1
        rw [Function.update_noteq hji] at e2
        exact ⟨e1, e2⟩
      · intro j hj
        rcases List.mem_cons.mp hj with rfl | hj2
        · obtain ⟨e1, e2⟩ := histq j hir
          rw [Function.update_same] at e1
          rw [Function.update_same] at e2
          refine ⟨?_, ?_⟩
          · rw [q11, e2, hcur]
            rfl
          · rw [e1, e2, rangeMap_getLast, hacc]
        · exact q3 j hj2
      · have q4b : ∑ s ∈ Finset.range st.serversCount, st2.servers s =
            (∑ s ∈ Finset.range st.serversCount,
              Function.update st.servers curServer
                (st.servers curServer + 1) s) + (rest.length : Int) := q4
        rw [sum_update st.servers st.serversCount curServer _
          (hring acc curServer hcur)] at q4b
        rw [q4b]
        simp only [List.length_cons]
        push_cast
        ring

/-- Wellformedness holds right after a successful initial load. -/
theorem start_wf (servers duplicates objects : Nat) (epsilon : ℚ)
    (r : Nat → Nat) (fuel : Nat) (st : RJState)
    (h : start (init servers duplicates objects epsilon) r fuel = some st) :
    WF st := by
  rw [start] at h
  cases hassign : assignServers r ringLen
      (init servers duplicates objects epsilon).duplicatesCount fuel
      (List.range (init servers duplicates objects epsilon).serversCount)
      (fun _ => none) (fun _ => []) 0 with
  | none =>
    rw [hassign] at h
    cases h
  | some atk =>
    obtain ⟨arr, toIdx, k0⟩ := atk
    rw [hassign, Option.some_bind] at h
    have hassign2 : assignServers r ringLen duplicates fuel
        (List.range servers) (fun _ => none) (fun _ => []) 0 =
        some (arr, toIdx, k0) := hassign
    have h2 : (placeAll r fuel (List.range objects)
        (startBase (init servers duplicates objects epsilon) arr toIdx)
        k0).map (fun sk => sk.1) = some st := h
    cases hplace : placeAll r fuel (List.range objects)
        (startBase (init servers duplicates objects epsilon) arr toIdx)
        k0 with
    | none =>
      rw [hplace, Option.map_none'] at h2
      cases h2
    | some sk =>
      obtain ⟨st1, k1⟩ := sk
      rw [hplace, Option.map_some'] at h2
      simp only [Option.some.injEq] at h2
      obtain ⟨a1, a2, a3, a4⟩ :=
        assignServers_spec r ringLen duplicates fuel (List.range servers)
          (fun _ => none) (fun _ => []) 0 arr toIdx k0 hassign2
          (List.nodup_range servers)
      have hring : ∀ n s, (startBase
          (init servers duplicates objects epsilon) arr
          toIdx).serversArray n = some s →
          s < (startBase (init servers duplicates objects epsilon) arr
            toIdx).serversCount := by
        intro n s hs
        have hs2 : arr n = some s := hs
        rcases a2 n s hs2 with h4 | h4
        · cases h4
        · exact List.mem_range.mp h4
      obtain ⟨p1, p2, p3, p4⟩ :=
        placeAll_spec r fuel (List.range objects) _ k0 st1 k1 hplace
          (List.nodup_range objects) hring
      obtain ⟨p11, p12, p13, p14, p15, p16, p17⟩ := p1
      rw [← h2]
      refine ⟨?_, ?_, ?_, ?_, ?_, ?_, ?_, ?_⟩
      · intro n s hs
        rw [p11] at hs
        rw [p13]
        exact hring n s hs
      · intro s j hj
        rw [p12] at hj
        have hj2 : j ∈ toIdx s := hj
        rw [p11]
        by_cases hsL : s ∈ List.range servers
        · exact a4 s hsL j hj2
        · rw [a3 s hsL] at hj2
          exact absurd hj2 (List.not_mem_nil _)
      · rw [p15]
        exact List.nodup_range objects
      · intro j hj
        exact (p3 j (by rwa [p15] at hj)).1
      · intro j hj
        exact (p3 j (by rwa [p15] at hj)).2
      · intro j hj
        rw [p15] at hj
        rw [p17]
        exact List.mem_range.mp hj
      · rw [p13, p16, p4]
        have hzero : ∑ s ∈ Finset.range (startBase
            (init servers duplicates objects epsilon) arr
            toIdx).serversCount,
            (startBase (init servers duplicates objects epsilon) arr
              toIdx).servers s = (0 : Int) := by
          show (∑ s ∈ Finset.range servers, (0 : Int)) = 0
          simp
        rw [hzero, List.length_range]
        show (0 : Int) + (objects : Int) = (objects : Int)
        ring
      · rw [p16, p15]
        show (objects : Int) = ((List.range objects).length : Int)
        rw [List.length_range]

/-- Every observable state is wellformed. -/
theorem reachable_wf (st : RJState) (h : Reachable st) : WF st := by
  induction h with
  | base servers duplicates objects epsilon r fuel st hstart =>
    exact start_wf servers duplicates objects epsilon r fuel st hstart
  | add st st2 r fuel hreach hadd ih =>
    exact (addOneObject_wf st r fuel st2 hadd ih).1
  | remove st st2 log O fuel hreach hO hrem ih =>
    exact (removeOneObject_wf O hO fuel st st2 log hrem ih).1

/-! ### Claim C7 counterexample: one cascade visits a server twice -/

/-- C7: refuted on the overfill run.  The ghost trace of the guard-passing
cascade frames of the final removeOneObject call is [0, 1, 0, 1]: server 0
and server 1 each enter the searching-for-mover state twice within a single
top-level removal (with only 3 servers, the recursion depth 4 also exceeds
the server count), against the claimed at-most-once visit bound. -/
theorem c7_counterexample :
    exFinalRun.map (fun p =>
        (p.2, decide (p.2.count 0 ≤ 1), decide (p.2.count 1 ≤ 1),
          p.1.serversCount)) =
      some ([0, 1, 0, 1], false, false, 3) := by decide

/-! ### Claim C2 (confirmed): capacity conservation -/

/-- C2: at every observable point the server loads sum to the live object
count; a successful addOneObject raises the count, the live list length and
the load sum by exactly one, a successful removeOneObject lowers all three
by exactly one, and a successful fillBinOne cascade changes none of them. -/
theorem c2_capacity_conservation :
    (∀ st, Reachable st →
      ∑ s ∈ Finset.range st.serversCount, st.servers s = st.objectsCount ∧
        st.objectsCount = (st.liveObjects.length : Int)) ∧
    (∀ st r fuel st2, Reachable st → addOneObject st r fuel = some st2 →
      st2.objectsCount = st.objectsCount + 1 ∧
        st2.liveObjects.length = st.liveObjects.length + 1 ∧
        ∑ s ∈ Finset.range st2.serversCount, st2.servers s =
          (∑ s ∈ Finset.range st.serversCount, st.servers s) + 1) ∧
    (∀ st O fuel st2 log, Reachable st → FairShuffles O →
      removeOneObject O fuel st = some (st2, log) →
      st2.objectsCount = st.objectsCount - 1 ∧
        st2.liveObjects.length + 1 = st.liveObjects.length ∧
        ∑ s ∈ Finset.range st2.serversCount, st2.servers s =
          (∑ s ∈ Finset.range st.serversCount, st.servers s) - 1) ∧
    (∀ st slot t O fuel st2 t2 log, Reachable st → FairShuffles O →
      fillBinOne O fuel st slot t = some (st2, t2, log) →
      st2.objectsCount = st.objectsCount ∧
        st2.liveObjects.length = st.liveObjects.length ∧
        ∑ s ∈ Finset.range st2.serversCount, st2.servers s =
          ∑ s ∈ Finset.range st.serversCount, st.servers s) := by
  refine ⟨?_, ?_, ?_, ?_⟩
  · intro st h
    have hwf := reachable_wf st h
    exact ⟨hwf.sumLoads, hwf.countLen⟩
  · intro st r fuel st2 h hadd
    have hwf := reachable_wf st h
    obtain ⟨hwf2, hsc, hoc, hlen⟩ := addOneObject_wf st r fuel st2 hadd hwf
    refine ⟨hoc, hlen, ?_⟩
    calc ∑ s ∈ Finset.range st2.serversCount, st2.servers s
        = st2.objectsCount := hwf2.sumLoads
      _ = st.objectsCount + 1 := hoc
      _ = (∑ s ∈ Finset.range st.serversCount, st.servers s) + 1 := by
          rw [hwf.sumLoads]
  · intro st O fuel st2 log h hO hrem
    have hwf := reachable_wf st h
    obtain ⟨hwf2, hsc, hoc, hlen⟩ :=
      removeOneObject_wf O hO fuel st st2 log hrem hwf
    refine ⟨hoc, hlen, ?_⟩
    calc ∑ s ∈ Finset.range st2.serversCount, st2.servers s
        = st2.objectsCount := hwf2.sumLoads
      _ = st.objectsCount - 1 := hoc
      _ = (∑ s ∈ Finset.range st.serversCount, st.servers s) - 1 := by
          rw [hwf.sumLoads]
  · intro st slot t O fuel st2 t2 log h hO hfill
    have hwf := reachable_wf st h
    obtain ⟨hwf2, hskel, _⟩ :=
      fillBinOne_wf O hO fuel st slot t st2 t2 log hfill hwf
    refine ⟨hskel.ocount, by rw [hskel.live], ?_⟩
    calc ∑ s ∈ Finset.range st2.serversCount, st2.servers s
        = st2.objectsCount := hwf2.sumLoads
      _ = st.objectsCount := hskel.ocount
      _ = ∑ s ∈ Finset.range st.serversCount, st.servers s :=
          hwf.sumLoads.symm

/-- Concrete instantiation of the conservation invariant on the observable
state produced by the exStart5 run. -/
theorem c2_witness :
    ∑ s ∈ Finset.range exSt5.serversCount, exSt5.servers s =
        exSt5.objectsCount ∧
      exSt5.objectsCount = (exSt5.liveObjects.length : Int) :=
  c2_capacity_conservation.1 exSt5
    (Reachable.base 1 1 1 q310 (str [5, 7, 5]) 10 exSt5 rfl)

/-! ### Claim C5 amended theorem: current slot is the last history entry -/

/-- C5 as amended: for every live object of every observable state, the
current slot is the last element of the recorded probe history and is itself
a non-empty ring slot.  The dropped half of the original sentence, that
every recorded history element was a non-empty slot when recorded, is
refuted by c5_counterexample: failing probes of empty cells are recorded
too. -/
theorem c5_live_current_is_last (st : RJState) (h : Reachable st) :
    ∀ i ∈ st.liveObjects,
      (st.objectsHistory i).getLast? = some (st.objectsCurrent i) ∧
      (st.serversArray (st.objectsCurrent i)).isSome = true := by
  intro i hi
  have hwf := reachable_wf st h
  exact ⟨hwf.histLast i hi, hwf.currentValid i hi⟩

/-- Concrete instantiation of the amended probe-history invariant on the
live object 0 of the exStart5 run. -/
theorem c5_witness :
    (exSt5.objectsHistory 0).getLast? = some (exSt5.objectsCurrent 0) ∧
      (exSt5.serversArray (exSt5.objectsCurrent 0)).isSome = true :=
  c5_live_current_is_last exSt5
    (Reachable.base 1 1 1 q310 (str [5, 7, 5]) 10 exSt5 rfl) 0 (by decide)

/-! ### Claim C7 amended theorem: the honest termination bound -/

/-- C7 as amended: the cascade does terminate, but the honest bound is the
total length of the live probe histories, not the server count
(c7_counterexample shows servers re-entering the searching state within one
removal).  Every displacement strictly truncates one live history, so on a
wellformed state and a non-empty start slot the cascade cannot run out of
fuel once the fuel exceeds that measure. -/
theorem c7_cascade_terminates (O : Oracle) (hO : FairShuffles O)
    (fuel : Nat) (st : RJState) (slot t : Nat) (hwf : WF st)
    (hslot : (st.serversArray slot).isSome = true)
    (hfuel : histMeasure st < fuel) :
    (fillBinOne O fuel st slot t).isSome = true :=
  fillBinOne_total O hO fuel st slot t hwf hslot hfuel

/-- Concrete instantiation of the termination bound: a cascade started at
slot 5 of the exStart5 state returns within fuel 10. -/
theorem c7_witness :
    (fillBinOne idOracle 10 exSt5 5 0).isSome = true :=
  c7_cascade_terminates idOracle idOracle_fair 10 exSt5 5 0
    (reachable_wf exSt5
      (Reachable.base 1 1 1 q310 (str [5, 7, 5]) 10 exSt5 rfl))
    (by decide) (by decide)

/-! ### Claim C8 (corrected): the multi-probe split -/

theorem pyAnd_bounds (x : Int) (m : Nat) :
    0 ≤ pyAnd x m ∧ pyAnd x m < 2 ^ m := by
  have hm : (0 : Int) < 2 ^ m := by positivity
  exact ⟨Int.emod_nonneg x (ne_of_gt hm), Int.emod_lt_of_pos x hm⟩

theorem pyShr_bounds (x : Int) (k m : Nat) (h1 : -(2 ^ m * 2 ^ k) ≤ x)
    (h2 : x < 2 ^ m * 2 ^ k) : -(2 ^ m) ≤ pyShr x k ∧ pyShr x k < 2 ^ m := by
  have hk : (0 : Int) < 2 ^ k := by positivity
  rw [pyShr, Int.fdiv_eq_ediv _ (le_of_lt hk)]
  constructor
  · rw [Int.le_ediv_iff_mul_le hk]
    calc -(2 ^ m) * 2 ^ k = -(2 ^ m * 2 ^ k) := by ring
      _ ≤ x := h1
  · rw [Int.ediv_lt_iff_lt_mul hk]
    exact h2

theorem pyShr_nonneg_lt (x : Int) (k m : Nat) (h1 : 0 ≤ x)
    (h2 : x < 2 ^ m * 2 ^ k) : 0 ≤ pyShr x k ∧ pyShr x k < 2 ^ m := by
  have hk : (0 : Int) < 2 ^ k := by positivity
  rw [pyShr, Int.fdiv_eq_ediv _ (le_of_lt hk)]
  exact ⟨Int.ediv_nonneg h1 (le_of_lt hk),
    (Int.ediv_lt_iff_lt_mul hk).mpr h2⟩

theorem pyMask20 (x : Int) :
    0 ≤ pyShr (pyAnd x 32) 12 ∧ pyShr (pyAnd x 32) 12 < 2 ^ 20 := by
  have h0 := pyAnd_bounds x 32
  have e : ((2 : Int) ^ 20 * 2 ^ 12) = 2 ^ 32 := by norm_num
  exact pyShr_nonneg_lt (pyAnd x 32) 12 20 h0.1 (by rw [e]; exact h0.2)

theorem pyShr_signed64 (x : Int) (hlo : -(2 ^ 63) ≤ x) (hhi : x < 2 ^ 63) :
    -(2 ^ 19) ≤ pyShr x 44 ∧ pyShr x 44 < 2 ^ 19 := by
  have e : ((2 : Int) ^ 19 * 2 ^ 44) = 2 ^ 63 := by norm_num
  exact pyShr_bounds x 44 19 (by rw [e]; exact hlo) (by rw [e]; exact hhi)

theorem pyShr_double (x : Int) (hlo : -(2 ^ 63) ≤ x) (hhi : x < 2 ^ 63) :
    -(2 ^ 19) ≤ pyShr (pyShr x 32) 12 ∧ pyShr (pyShr x 32) 12 < 2 ^ 19 := by
  have e1 : ((2 : Int) ^ 31 * 2 ^ 32) = 2 ^ 63 := by norm_num
  have hA := pyShr_bounds x 32 31 (by rw [e1]; exact hlo)
    (by rw [e1]; exact hhi)
  have e2 : ((2 : Int) ^ 19 * 2 ^ 12) = 2 ^ 31 := by norm_num
  exact pyShr_bounds (pyShr x 32) 12 19 (by rw [e2]; exact hA.1)
    (by rw [e2]; exact hA.2)

/-- C8: counterexample.  mmh3.hash64 returns signed 64-bit halves, so the
shifted candidates are not ring indices: on hash halves (-1, 0) the second
candidate of the first split and of every rehash split is -1, outside the
ring's index range; numpy then silently indexes from the end of the array
(the wrap is visible on the exStart5 ring) instead of rejecting it. -/
theorem c8_counterexample :
    (firstSplit (-1, 0)).2.1 = -1 ∧ (rehashSplit (-1, 0)).2.1 = -1 ∧
      ¬ (0 ≤ (firstSplit (-1, 0)).2.1) ∧
      npIndex exSt5 (-1) = some (exSt5.serversArray (ringLen - 1)) := by
  decide

/-- C8 as amended: each retry consumes exactly one fresh hash and bumps the
attempt counter by one, the candidates come from masking or shifting
disjoint bit ranges, and acceptance stops at the first of the four whose
slot is owned by a non-full server, in left-to-right short-circuit order.
But only the masked candidates land in the ring's 20-bit index range: the
shifted candidates of signed 64-bit hash halves land in [-2^19, 2^19) and
can be negative (c8_counterexample).  The method as written would also
raise NameError before any probe: it calls time.time() and the module
never imports time. -/
theorem c8_multiprobe_split (h12 : Int × Int)
    (hb : -(2 ^ 63) ≤ h12.1 ∧ h12.1 < 2 ^ 63 ∧
      -(2 ^ 63) ≤ h12.2 ∧ h12.2 < 2 ^ 63) :
    (0 ≤ (firstSplit h12).1 ∧ (firstSplit h12).1 < 2 ^ 20) ∧
    (0 ≤ (firstSplit h12).2.2.1 ∧ (firstSplit h12).2.2.1 < 2 ^ 20) ∧
    (-(2 ^ 19) ≤ (firstSplit h12).2.1 ∧ (firstSplit h12).2.1 < 2 ^ 19) ∧
    (-(2 ^ 19) ≤ (firstSplit h12).2.2.2 ∧ (firstSplit h12).2.2.2 < 2 ^ 19) ∧
    (0 ≤ (rehashSplit h12).1 ∧ (rehashSplit h12).1 < 2 ^ 20) ∧
    (0 ≤ (rehashSplit h12).2.2.1 ∧ (rehashSplit h12).2.2.1 < 2 ^ 20) ∧
    (-(2 ^ 19) ≤ (rehashSplit h12).2.1 ∧ (rehashSplit h12).2.1 < 2 ^ 19) ∧
    (-(2 ^ 19) ≤ (rehashSplit h12).2.2.2 ∧
      (rehashSplit h12).2.2.2 < 2 ^ 19) ∧
    (∀ (st : RJState) (c : Int × Int × Int × Int),
      ineligibleAt st c.1 = some false →
      allIneligible st c = some false) ∧
    (∀ (st : RJState) (c : Int × Int × Int × Int),
      allIneligible st c = some true →
      ineligibleAt st c.1 = some true ∧ ineligibleAt st c.2.1 = some true ∧
        ineligibleAt st c.2.2.1 = some true ∧
        ineligibleAt st c.2.2.2 = some true) ∧
    (∀ (H : Nat → Int × Int) (st : RJState) (fuel counter : Nat)
      (c : Int × Int × Int × Int), allIneligible st c = some false →
      wallTimeLoop H st (fuel + 1) counter c = some counter) ∧
    (∀ (H : Nat → Int × Int) (st : RJState) (fuel counter : Nat)
      (c : Int × Int × Int × Int), allIneligible st c = some true →
      wallTimeLoop H st (fuel + 1) counter c =
        wallTimeLoop H st fuel (counter + 1)
          (rehashSplit (H (counter + 1)))) ∧
    (∀ (H : Nat → Int × Int) (st : RJState) (fuel : Nat),
      assignObjectWallTime H st fuel =
        wallTimeLoop H st fuel 0 (firstSplit (H 0))) := by
  obtain ⟨hb1, hb2, hb3, hb4⟩ := hb
  refine ⟨pyMask20 h12.1, pyMask20 h12.2, pyShr_double h12.1 hb1 hb2,
    pyShr_double h12.2 hb3 hb4, pyAnd_bounds h12.1 20, pyAnd_bounds h12.2 20,
    pyShr_signed64 h12.1 hb1 hb2, pyShr_signed64 h12.2 hb3 hb4,
    ?_, ?_, ?_, ?_, ?_⟩
  · intro st c hc
    simp [allIneligible, hc]
  · intro st c hc
    cases h1 : ineligibleAt st c.1 with
    | none => simp [allIneligible, h1] at hc
    | some b1 =>
      cases b1 with
      | false => simp [allIneligible, h1] at hc
      | true =>
        cases h2 : ineligibleAt st c.2.1 with
        | none => simp [allIneligible, h1, h2] at hc
        | some b2 =>
          cases b2 with
          | false => simp [allIneligible, h1, h2] at hc
          | true =>
            cases h3 : ineligibleAt st c.2.2.1 with
            | none => simp [allIneligible, h1, h2, h3] at hc
            | some b3 =>
              cases b3 with
              | false => simp [allIneligible, h1, h2, h3] at hc
              | true =>
                simp only [allIneligible, h1, h2, h3] at hc
                exact ⟨rfl, rfl, rfl, hc⟩
  · intro H st fuel counter c hc
    simp [wallTimeLoop, hc]
  · intro H st fuel counter c hc
    simp [wallTimeLoop, hc]
  · intro H st fuel
    rfl

/-- Concrete instantiation of the amended multi-probe characterisation at
hash halves 5 and -9. -/
theorem c8_witness :
    (0 ≤ (firstSplit (5, -9)).1 ∧ (firstSplit (5, -9)).1 < 2 ^ 20) ∧
    (0 ≤ (firstSplit (5, -9)).2.2.1 ∧ (firstSplit (5, -9)).2.2.1 < 2 ^ 20) ∧
    (-(2 ^ 19) ≤ (firstSplit (5, -9)).2.1 ∧
      (firstSplit (5, -9)).2.1 < 2 ^ 19) ∧
    (-(2 ^ 19) ≤ (firstSplit (5, -9)).2.2.2 ∧
      (firstSplit (5, -9)).2.2.2 < 2 ^ 19) ∧
    (0 ≤ (rehashSplit (5, -9)).1 ∧ (rehashSplit (5, -9)).1 < 2 ^ 20) ∧
    (0 ≤ (rehashSplit (5, -9)).2.2.1 ∧
      (rehashSplit (5, -9)).2.2.1 < 2 ^ 20) ∧
    (-(2 ^ 19) ≤ (rehashSplit (5, -9)).2.1 ∧
      (rehashSplit (5, -9)).2.1 < 2 ^ 19) ∧
    (-(2 ^ 19) ≤ (rehashSplit (5, -9)).2.2.2 ∧
      (rehashSplit (5, -9)).2.2.2 < 2 ^ 19) ∧
    (∀ (st : RJState) (c : Int × Int × Int × Int),
      ineligibleAt st c.1 = some false →
      allIneligible st c = some false) ∧
    (∀ (st : RJState) (c : Int × Int × Int × Int),
      allIneligible st c = some true →
      ineligibleAt st c.1 = some true ∧ ineligibleAt st c.2.1 = some true ∧
        ineligibleAt st c.2.2.1 = some true ∧
        ineligibleAt st c.2.2.2 = some true) ∧
    (∀ (H : Nat → Int × Int) (st : RJState) (fuel counter : Nat)
      (c : Int × Int × Int × Int), allIneligible st c = some false →
      wallTimeLoop H st (fuel + 1) counter c = some counter) ∧
    (∀ (H : Nat → Int × Int) (st : RJState) (fuel counter : Nat)
      (c : Int × Int × Int × Int), allIneligible st c = some true →
      wallTimeLoop H st (fuel + 1) counter c =
        wallTimeLoop H st fuel (counter + 1)
          (rehashSplit (H (counter + 1)))) ∧
    (∀ (H : Nat → Int × Int) (st : RJState) (fuel : Nat),
      assignObjectWallTime H st fuel =
        wallTimeLoop H st fuel 0 (firstSplit (H 0))) :=
  c8_multiprobe_split (5, -9) (by decide)

end RJCH
